import Mathlib

/-!
Shallow embedding of `pygen.py`, a COFF object-file generator.

Modelling conventions, chosen to mirror the Python source byte for byte:

* a Python `bytes`/`bytearray` value is a `List Nat` whose elements are byte
  values; a Python `str` is a `List Nat` of Unicode code points, so that
  `len(s)` is the list length and `s.encode()` is its UTF-8 encoding;
* `struct.pack` on this platform (CPython, x86-64, little-endian) writes
  fields little-endian and raises `struct.error` when an integer argument is
  out of range, so every packing function returns an `Option`;
* the format string `"8sIIIIIHHHI"` of `COFFSection.pack` is packed in
  struct's native mode, which aligns every field to its own size: the final
  `I` sits after three `H` fields at offset 34 and is aligned up to 36 with
  two zero padding bytes, giving `struct.calcsize("8sIIIIIHHHI") = 40`
  (matching the source's `COFFSection.size() = 0x28`); the other format
  strings (`"8sIHHBB"`, `"IIH"`, `"HHIIIHH"`, `"II"`, `"I"`, `"H"`) incur no
  padding;
* Python's nondeterministic `int(datetime.now().timestamp())` is an explicit
  `Nat` parameter `t` of `COFFHeader.pack` and `COFFGenerator.emit`;
* methods that mutate objects take the object and return the updated copy;
  `COFFSymbol.pack`, which calls `self.generator.string(...)` through the
  symbol's back-reference to its generator, takes the generator state and
  returns the possibly updated one.
-/

/-- Little-endian byte list of the low 16 bits of a number. -/
def le16 (n : Nat) : List Nat := [n % 256, n / 256 % 256]

/-- Little-endian byte list of the low 32 bits of a number. -/
def le32 (n : Nat) : List Nat :=
  [n % 256, n / 256 % 256, n / 65536 % 256, n / 16777216 % 256]

/-- Python `struct.pack("B", n)`: one byte, `struct.error` when out of range. -/
def packU8 (n : Nat) : Option (List Nat) := if n < 256 then some [n] else none

/-- Python `struct.pack("H", n)`: two little-endian bytes, `struct.error` when
`n` does not fit in 16 bits. -/
def packU16 (n : Nat) : Option (List Nat) := if n < 65536 then some (le16 n) else none

/-- Python `struct.pack("I", n)`: four little-endian bytes, `struct.error`
when `n` does not fit in 32 bits. -/
def packU32 (n : Nat) : Option (List Nat) := if n < 4294967296 then some (le32 n) else none

/-- Python `bytes.ljust(k, b"\x00")`: pad on the right up to length `k`,
longer inputs returned unchanged. -/
def ljust (k : Nat) (b : List Nat) : List Nat := b ++ List.replicate (k - b.length) 0

/-- A `ks` field of `struct.pack`: truncate or zero-pad to exactly `k` bytes. -/
def packS (k : Nat) (b : List Nat) : List Nat := b.take k ++ List.replicate (k - b.length) 0

/-- UTF-8 encoding of one Unicode code point. -/
def utf8Char (c : Nat) : List Nat :=
  if c < 128 then [c]
  else if c < 2048 then [192 + c / 64, 128 + c % 64]
  else if c < 65536 then [224 + c / 4096, 128 + c / 64 % 64, 128 + c % 64]
  else [240 + c / 262144, 128 + c / 4096 % 64, 128 + c / 64 % 64, 128 + c % 64]

/-- Python `str.encode()`: UTF-8 encoding of a string of code points. -/
def utf8 : List Nat → List Nat
  | [] => []
  | c :: rest => utf8Char c ++ utf8 rest

/-- A Lean string literal as a Python string value (list of code points). -/
def pyStr (s : String) : List Nat := s.data.map Char.toNat

/-- Python slice assignment `buf[off : off + len(repl)] = repl` (as used in
`emit`, where the slice always lies inside the buffer). -/
def patch (buf : List Nat) (off : Nat) (repl : List Nat) : List Nat :=
  buf.take off ++ (repl ++ buf.drop (off + repl.length))

/-- The record class `COFFRelocation` of `pygen.py`. -/
structure COFFRelocation where
  VirtualAddress : Nat
  SymbolTableIndex : Nat
  type_ : Nat
  deriving Repr, DecidableEq

/-- The record class `COFFSection` of `pygen.py`: a name (code points), an
ordered relocation list, a virtual address, characteristics and a data
buffer. -/
structure COFFSection where
  name : List Nat
  relocations : List COFFRelocation
  VirtualAddress : Nat
  characteristics : Nat
  data : List Nat
  deriving Repr, DecidableEq

/-- The record class `COFFSymbol` of `pygen.py` (without the back-reference
to the generator, which `COFFSymbol.pack` receives explicitly). -/
structure COFFSymbol where
  name : List Nat
  value : Nat
  sectionIdx : Nat
  type_ : Nat
  storage : Nat
  deriving Repr, DecidableEq

/-- The record class `COFFHeader` of `pygen.py`. -/
structure COFFHeader where
  Machine : Nat
  TimeDateStamp : Nat
  NumberOfSections : Nat
  PointerToSymbolTable : Nat
  NumberOfSymbols : Nat
  SizeOfOptionalHeader : Nat
  Characteristics : Nat
  deriving Repr, DecidableEq

/-- The class `COFFGenerator` of `pygen.py`. -/
structure COFFGenerator where
  is64bit : Bool
  symbols : List COFFSymbol
  sections : List COFFSection
  strings : List Nat
  header : COFFHeader
  deriving Repr, DecidableEq

/-- Source `COFFHeader.size()` = 0x14. -/
def COFFHeader.size : Nat := 20

/-- Source `COFFSection.size()` = 0x28. -/
def COFFSection.size : Nat := 40

/-- Source `COFFSymbol.size()` = 0x12. -/
def COFFSymbol.size : Nat := 18

/-- Source `COFFRelocation.size()` = 0xa. -/
def COFFRelocation.size : Nat := 10

/-- Source `COFFRelocation.pack`: `struct.pack("IIH", VirtualAddress,
SymbolTableIndex, Type)`. -/
def COFFRelocation.pack (r : COFFRelocation) : Option (List Nat) :=
  match packU32 r.VirtualAddress, packU32 r.SymbolTableIndex, packU16 r.type_ with
  | some va, some si, some ty => some (va ++ si ++ ty)
  | _, _, _ => none

/-- Source `COFFSection.pack`: `struct.pack("8sIIIIIHHHI",
name[:8].encode().ljust(8, zero), len(data), VirtualAddress, len(data), 0, 0,
0, 0, len(relocations), characteristics)`; the two trailing `[0, 0]` bytes
are struct's native alignment padding before the final `I` field. -/
def COFFSection.pack (s : COFFSection) : Option (List Nat) :=
  let nameBytes := ljust 8 (utf8 (s.name.take 8))
  match packU32 s.data.length, packU32 s.VirtualAddress,
        packU16 s.relocations.length, packU32 s.characteristics with
  | some sz, some va, some nr, some ch =>
      some (packS 8 nameBytes ++ sz ++ va ++ sz ++ le32 0 ++ le32 0 ++
            le16 0 ++ le16 0 ++ nr ++ [0, 0] ++ ch)
  | _, _, _, _ => none

/-- Source `COFFSection.emit`: append bytes to the data buffer, returning the
offset where they were placed. -/
def COFFSection.emit (s : COFFSection) (b : List Nat) : Nat × COFFSection :=
  (s.data.length, { s with data := s.data ++ b })

/-- Source `COFFSection.reloc`: append a relocation record. -/
def COFFSection.reloc (s : COFFSection) (offset symbol ty : Nat) : COFFSection :=
  { s with relocations := s.relocations ++ [⟨offset, symbol, ty⟩] }

/-- Source `COFFHeader.pack` with the freshly captured timestamp `t`: stores
`t` into the header, then packs `struct.pack("HHIIIHH", ...)`. -/
def COFFHeader.pack (h : COFFHeader) (t : Nat) : Option (List Nat × COFFHeader) :=
  match packU16 h.Machine, packU16 h.NumberOfSections, packU32 t,
        packU32 h.PointerToSymbolTable, packU32 h.NumberOfSymbols,
        packU16 h.SizeOfOptionalHeader, packU16 h.Characteristics with
  | some m, some ns, some ts, some p, some nsym, some o, some c =>
      some (m ++ ns ++ ts ++ p ++ nsym ++ o ++ c, { h with TimeDateStamp := t })
  | _, _, _, _, _, _, _ => none

/-- Source `COFFGenerator.__init__` with the construction timestamp `t0`
(which `COFFHeader.__init__` captures, and which `COFFHeader.pack` later
overwrites). -/
def COFFGenerator.mk0 (is64bit : Bool) (t0 : Nat) : COFFGenerator :=
  { is64bit := is64bit
    symbols := []
    sections := []
    strings := [4, 0, 0, 0]
    header :=
      { Machine := if is64bit then 0x8664 else 0x014C
        TimeDateStamp := t0
        NumberOfSections := 0
        PointerToSymbolTable := 0
        NumberOfSymbols := 0
        SizeOfOptionalHeader := 0
        Characteristics := 0 } }

/-- Source `COFFGenerator.section`: create a section, append it, increment
the header's section count; returns the section and the updated generator. -/
def COFFGenerator.addSection (g : COFFGenerator) (name : List Nat)
    (characteristics : Nat) : COFFSection × COFFGenerator :=
  let s : COFFSection :=
    { name := name, relocations := [], VirtualAddress := 0,
      characteristics := characteristics, data := [] }
  (s, { g with
          sections := g.sections ++ [s]
          header := { g.header with
                        NumberOfSections := g.header.NumberOfSections + 1 } })

/-- Source `COFFGenerator.symbol`: create a symbol, append it, increment the
header's symbol count; returns the symbol and the updated generator. -/
def COFFGenerator.symbol (g : COFFGenerator) (name : List Nat)
    (value sectionIdx type_ storage : Nat) : COFFSymbol × COFFGenerator :=
  let sym : COFFSymbol :=
    { name := name, value := value, sectionIdx := sectionIdx,
      type_ := type_, storage := storage }
  (sym, { g with
            symbols := g.symbols ++ [sym]
            header := { g.header with
                          NumberOfSymbols := g.header.NumberOfSymbols + 1 } })

/-- Source `COFFGenerator.string`: record the current table length as the
returned offset, append the UTF-8 encoding of `s` plus a zero terminator,
then overwrite the first four bytes with `struct.pack("I", len(strings))`. -/
def COFFGenerator.string (g : COFFGenerator) (s : List Nat) :
    Option (Nat × COFFGenerator) :=
  match packU32 (g.strings ++ utf8 s ++ [0]).length with
  | none => none
  | some pfx =>
      some (g.strings.length,
            { g with strings := pfx ++ (g.strings ++ utf8 s ++ [0]).drop 4 })

/-- Source `COFFSymbol.pack`: a name of at most 8 characters is encoded and
padded (the `8s` field silently truncates an over-8-byte encoding); a longer
name is appended to the generator's string table now, and the record stores
`struct.pack("II", 0, offset)` instead. -/
def COFFSymbol.pack (sym : COFFSymbol) (g : COFFGenerator) :
    Option (List Nat × COFFGenerator) :=
  if sym.name.length ≤ 8 then
    match packU32 sym.value, packU16 sym.sectionIdx, packU16 sym.type_,
          packU8 sym.storage, packU8 0 with
    | some v, some sec, some ty, some st, some z =>
        some (packS 8 (ljust 8 (utf8 sym.name)) ++ v ++ sec ++ ty ++ st ++ z, g)
    | _, _, _, _, _ => none
  else
    match g.string sym.name with
    | none => none
    | some (off, g') =>
      match packU32 0, packU32 off, packU32 sym.value, packU16 sym.sectionIdx,
            packU16 sym.type_, packU8 sym.storage, packU8 0 with
      | some z0, some o, some v, some sec, some ty, some st, some z =>
          some (packS 8 (ljust 8 (z0 ++ o)) ++ v ++ sec ++ ty ++ st ++ z, g')
      | _, _, _, _, _, _, _ => none

/-- The `sectionHeaders` Python dict of `emit`, keyed by section name. -/
abbrev Dict := List (List Nat × Nat)

/-- Python dict assignment `d[k] = v`: overwrite the value of an existing
key in place (keys are unique by construction), otherwise append the new
binding at the end. -/
def dictSet : Dict → List Nat → Nat → Dict
  | [], k, v => [(k, v)]
  | p :: rest, k, v => if p.1 == k then (k, v) :: rest else p :: dictSet rest k v

/-- Python dict lookup `d[k]` (`none` models `KeyError`). -/
def dictGet (d : Dict) (k : List Nat) : Option Nat :=
  (d.find? (fun p => p.1 == k)).map (fun p => p.2)

/-- First `for` loop of `emit`: record each section header's start offset in
the dict, then append the packed header. -/
def emitSectionHeaders : List COFFSection → List Nat → Dict →
    Option (List Nat × Dict)
  | [], buf, d => some (buf, d)
  | s :: rest, buf, d =>
    match s.pack with
    | none => none
    | some ph => emitSectionHeaders rest (buf ++ ph) (dictSet d s.name buf.length)

/-- Second `for` loop of `emit`: patch `buf[h+20 : h+24]` of the section's
recorded header with `struct.pack("I", len(buf))`, then append the data. -/
def emitSectionData : List COFFSection → List Nat → Dict → Option (List Nat)
  | [], buf, _ => some buf
  | s :: rest, buf, d =>
    match dictGet d s.name with
    | none => none
    | some header =>
      match packU32 buf.length with
      | none => none
      | some p => emitSectionData rest (patch buf (header + 20) p ++ s.data) d

/-- Inner loop of the third pass: append each relocation's packed record. -/
def packRelocs : List COFFRelocation → List Nat → Option (List Nat)
  | [], buf => some buf
  | r :: rest, buf =>
    match r.pack with
    | none => none
    | some rb => packRelocs rest (buf ++ rb)

/-- Third `for` loop of `emit`: for each section with relocations, patch
`buf[h+24 : h+26]` with `struct.pack("H", len(buf))` — a two-byte patch of
the four-byte relocation-pointer field — then append the relocation
records. -/
def emitRelocs : List COFFSection → List Nat → Dict → Option (List Nat)
  | [], buf, _ => some buf
  | s :: rest, buf, d =>
    if 0 < s.relocations.length then
      match dictGet d s.name with
      | none => none
      | some header =>
        match packU16 buf.length with
        | none => none
        | some p =>
          match packRelocs s.relocations (patch buf (header + 24) p) with
          | none => none
          | some buf' => emitRelocs rest buf' d
    else emitRelocs rest buf d

/-- Fourth `for` loop of `emit`: append each symbol's packed record,
threading the generator state because packing a long-named symbol appends to
the string table. -/
def emitSymbols : List COFFSymbol → List Nat → COFFGenerator →
    Option (List Nat × COFFGenerator)
  | [], buf, g => some (buf, g)
  | sym :: rest, buf, g =>
    match sym.pack g with
    | none => none
    | some (sb, g') => emitSymbols rest (buf ++ sb) g'

/-- Source `COFFGenerator.emit` with the emission timestamp `t`: reserve a
zeroed header region, write section headers, patch data pointers and append
data, patch relocation pointers and append relocation records, set the
header's symbol-table pointer, append symbols and then the string table, and
finally overwrite the reserved region with the packed header. Returns the
buffer and the updated generator (the source mutates `self`). -/
def COFFGenerator.emit (g : COFFGenerator) (t : Nat) :
    Option (List Nat × COFFGenerator) :=
  match emitSectionHeaders g.sections (List.replicate COFFHeader.size 0) [] with
  | none => none
  | some (buf1, d) =>
    match emitSectionData g.sections buf1 d with
    | none => none
    | some buf2 =>
      match emitRelocs g.sections buf2 d with
      | none => none
      | some buf3 =>
        match emitSymbols g.symbols buf3
            { g with header :=
                { g.header with PointerToSymbolTable := buf3.length } } with
        | none => none
        | some (buf4, g2) =>
          match g2.header.pack t with
          | none => none
          | some (hp, h') =>
              some (patch (buf4 ++ g2.strings) 0 hp, { g2 with header := h' })

/-! ### Basic lemmas about the byte-level helpers -/

theorem le16_length (n : Nat) : (le16 n).length = 2 := rfl

theorem le32_length (n : Nat) : (le32 n).length = 4 := rfl

theorem packU8_eq_some {n : Nat} {b : List Nat} :
    packU8 n = some b ↔ n < 256 ∧ b = [n] := by
  constructor
  · intro h
    unfold packU8 at h
    split at h
    · exact ⟨by assumption, (Option.some.inj h).symm⟩
    · exact absurd h (by simp)
  · rintro ⟨h1, rfl⟩
    simp [packU8, h1]

theorem packU16_eq_some {n : Nat} {b : List Nat} :
    packU16 n = some b ↔ n < 65536 ∧ b = le16 n := by
  constructor
  · intro h
    unfold packU16 at h
    split at h
    · exact ⟨by assumption, (Option.some.inj h).symm⟩
    · exact absurd h (by simp)
  · rintro ⟨h1, rfl⟩
    simp [packU16, h1]

theorem packU32_eq_some {n : Nat} {b : List Nat} :
    packU32 n = some b ↔ n < 4294967296 ∧ b = le32 n := by
  constructor
  · intro h
    unfold packU32 at h
    split at h
    · exact ⟨by assumption, (Option.some.inj h).symm⟩
    · exact absurd h (by simp)
  · rintro ⟨h1, rfl⟩
    simp [packU32, h1]

theorem packS_length (k : Nat) (b : List Nat) : (packS k b).length = k := by
  simp [packS]; omega

theorem patch_length {buf repl : List Nat} {off : Nat}
    (h : off + repl.length ≤ buf.length) :
    (patch buf off repl).length = buf.length := by
  simp [patch]; omega

theorem patch_length_ge (buf repl : List Nat) (off : Nat) :
    buf.length ≤ (patch buf off repl).length := by
  simp [patch]; omega

theorem take_length_eq {buf : List Nat} {off : Nat} (h : off ≤ buf.length) :
    (buf.take off).length = off := by
  simp; omega

theorem patch_getElem?_left {buf repl : List Nat} {off k : Nat}
    (hk : k < off) (hoff : off ≤ buf.length) :
    (patch buf off repl)[k]? = buf[k]? := by
  unfold patch
  rw [List.getElem?_append_left (by rw [take_length_eq hoff]; exact hk),
      List.getElem?_take]
  simp [hk]

theorem patch_getElem?_mid {buf repl : List Nat} {off j : Nat}
    (hj : j < repl.length) (hoff : off ≤ buf.length) :
    (patch buf off repl)[off + j]? = repl[j]? := by
  unfold patch
  rw [List.getElem?_append_right (by rw [take_length_eq hoff]; omega)]
  rw [take_length_eq hoff]
  rw [List.getElem?_append_left (by omega : off + j - off < repl.length)]
  congr 1
  omega

theorem patch_getElem?_right {buf repl : List Nat} {off k : Nat}
    (hfit : off + repl.length ≤ buf.length) (hk : off + repl.length ≤ k) :
    (patch buf off repl)[k]? = buf[k]? := by
  unfold patch
  rw [List.getElem?_append_right (by rw [take_length_eq (by omega)]; omega)]
  rw [take_length_eq (by omega : off ≤ buf.length)]
  rw [List.getElem?_append_right (by omega)]
  rw [List.getElem?_drop]
  congr 1
  omega

/-- Bytes strictly outside the patched window are untouched. -/
theorem patch_getElem?_outside {buf repl : List Nat} {off k : Nat}
    (hfit : off + repl.length ≤ buf.length)
    (hk : k < off ∨ off + repl.length ≤ k) :
    (patch buf off repl)[k]? = buf[k]? := by
  rcases hk with hk | hk
  · exact patch_getElem?_left hk (by omega)
  · exact patch_getElem?_right hfit hk

/-- The four bytes of the output buffer starting at `pos`. -/
def read4 (buf : List Nat) (pos : Nat) : List Nat := (buf.drop pos).take 4

theorem read4_eq {buf : List Nat} {pos : Nat} {v0 v1 v2 v3 : Nat}
    (h0 : buf[pos]? = some v0) (h1 : buf[pos + 1]? = some v1)
    (h2 : buf[pos + 2]? = some v2) (h3 : buf[pos + 3]? = some v3) :
    read4 buf pos = [v0, v1, v2, v3] := by
  apply List.ext_getElem?
  intro n
  rw [read4, List.getElem?_take, List.getElem?_drop]
  match n with
  | 0 => simpa using h0
  | 1 => simpa using h1
  | 2 => simpa using h2
  | 3 => simpa using h3
  | (m + 4) => simp

/-! ### Packing lemmas for the record classes -/

theorem COFFRelocation.pack_eq_some_reloc {r : COFFRelocation} {b : List Nat}
    (h : r.pack = some b) :
    b.length = 10 := by
  unfold COFFRelocation.pack at h
  split at h
  case _ va si ty hva hsi hty =>
    obtain ⟨_, rfl⟩ := packU32_eq_some.mp hva
    obtain ⟨_, rfl⟩ := packU32_eq_some.mp hsi
    obtain ⟨_, rfl⟩ := packU16_eq_some.mp hty
    simp at h
    subst h
    rfl
  case _ => exact absurd h (by simp)

theorem COFFSection.pack_eq_some_section {s : COFFSection} {b : List Nat}
    (h : s.pack = some b) :
    s.data.length < 4294967296 ∧ s.relocations.length < 65536 ∧
    b = packS 8 (ljust 8 (utf8 (s.name.take 8))) ++ le32 s.data.length ++
        le32 s.VirtualAddress ++ le32 s.data.length ++ le32 0 ++ le32 0 ++
        le16 0 ++ le16 0 ++ le16 s.relocations.length ++ [0, 0] ++
        le32 s.characteristics := by
  unfold COFFSection.pack at h
  split at h
  case _ sz va nr ch hsz hva hnr hch =>
    obtain ⟨hd, rfl⟩ := packU32_eq_some.mp hsz
    obtain ⟨_, rfl⟩ := packU32_eq_some.mp hva
    obtain ⟨hr, rfl⟩ := packU16_eq_some.mp hnr
    obtain ⟨_, rfl⟩ := packU32_eq_some.mp hch
    simp only [Option.some.injEq] at h
    refine ⟨hd, hr, ?_⟩
    simp only [List.append_assoc] at h ⊢
    exact h.symm
  case _ => exact absurd h (by simp)

theorem COFFSection.pack_length_section {s : COFFSection} {b : List Nat}
    (h : s.pack = some b) : b.length = 40 := by
  obtain ⟨-, -, rfl⟩ := COFFSection.pack_eq_some_section h
  simp [packS_length, le32, le16]

/-! ### Lemmas about symbol, header and string-table operations -/

theorem COFFHeader.pack_eq_some_header {h : COFFHeader} {t : Nat} {b : List Nat}
    {h' : COFFHeader} (hp : h.pack t = some (b, h')) :
    h' = { h with TimeDateStamp := t } ∧ t < 4294967296 ∧
    b = le16 h.Machine ++ (le16 h.NumberOfSections ++ (le32 t ++
        (le32 h.PointerToSymbolTable ++ (le32 h.NumberOfSymbols ++
        (le16 h.SizeOfOptionalHeader ++ le16 h.Characteristics))))) := by
  unfold COFFHeader.pack at hp
  split at hp
  case _ m ns ts p nsym o c hm hns hts hp2 hnsym ho hc =>
    obtain ⟨-, rfl⟩ := packU16_eq_some.mp hm
    obtain ⟨-, rfl⟩ := packU16_eq_some.mp hns
    obtain ⟨ht, rfl⟩ := packU32_eq_some.mp hts
    obtain ⟨-, rfl⟩ := packU32_eq_some.mp hp2
    obtain ⟨-, rfl⟩ := packU32_eq_some.mp hnsym
    obtain ⟨-, rfl⟩ := packU16_eq_some.mp ho
    obtain ⟨-, rfl⟩ := packU16_eq_some.mp hc
    simp only [Option.some.injEq, Prod.mk.injEq] at hp
    refine ⟨hp.2.symm, ht, ?_⟩
    simp only [List.append_assoc] at hp ⊢
    exact hp.1.symm
  case _ => exact absurd hp (by simp)

theorem COFFHeader.pack_length_header {h : COFFHeader} {t : Nat} {b : List Nat}
    {h' : COFFHeader} (hp : h.pack t = some (b, h')) : b.length = 20 := by
  obtain ⟨-, -, rfl⟩ := COFFHeader.pack_eq_some_header hp
  simp [le16, le32]

/-- Packing a header never reads its stored timestamp (it is overwritten
with the fresh one first). -/
theorem COFFHeader.pack_set_time (h : COFFHeader) (s t : Nat) :
    COFFHeader.pack { h with TimeDateStamp := s } t = COFFHeader.pack h t := rfl

theorem COFFGenerator.string_eq_some {g : COFFGenerator} {s : List Nat}
    {off : Nat} {g' : COFFGenerator} (h : g.string s = some (off, g')) :
    off = g.strings.length ∧
    (g.strings ++ utf8 s ++ [0]).length < 4294967296 ∧
    g' = { g with strings := (le32 (g.strings ++ utf8 s ++ [0]).length ++ (g.strings ++ utf8 s ++ [0]).drop 4) } := by
  unfold COFFGenerator.string at h
  split at h
  case _ => exact absurd h (by simp)
  case _ pfx hpfx =>
    obtain ⟨hlt, rfl⟩ := packU32_eq_some.mp hpfx
    simp only [Option.some.injEq, Prod.mk.injEq] at h
    exact ⟨h.1.symm, hlt, h.2.symm⟩

theorem COFFGenerator.string_strings_length {g : COFFGenerator} {s : List Nat}
    {off : Nat} {g' : COFFGenerator} (h : g.string s = some (off, g'))
    (h4 : 4 ≤ g.strings.length) :
    g'.strings.length = g.strings.length + (utf8 s).length + 1 := by
  obtain ⟨-, -, rfl⟩ := COFFGenerator.string_eq_some h
  simp [le32]
  omega

/-- Packing a symbol whose name has at most 8 characters leaves the
generator untouched and inlines the (possibly truncated) encoded name. -/
theorem COFFSymbol.pack_short {sym : COFFSymbol} {g g' : COFFGenerator}
    {rec : List Nat} (hs : sym.name.length ≤ 8)
    (h : sym.pack g = some (rec, g')) :
    g' = g ∧
    rec = packS 8 (ljust 8 (utf8 sym.name)) ++ (le32 sym.value ++
          (le16 sym.sectionIdx ++ (le16 sym.type_ ++ [sym.storage, 0]))) := by
  unfold COFFSymbol.pack at h
  rw [if_pos hs] at h
  split at h
  case _ v sec ty st z hv hsec hty hst hz =>
    obtain ⟨-, rfl⟩ := packU32_eq_some.mp hv
    obtain ⟨-, rfl⟩ := packU16_eq_some.mp hsec
    obtain ⟨-, rfl⟩ := packU16_eq_some.mp hty
    obtain ⟨-, rfl⟩ := packU8_eq_some.mp hst
    obtain ⟨-, rfl⟩ := packU8_eq_some.mp hz
    simp only [Option.some.injEq, Prod.mk.injEq] at h
    refine ⟨h.2.symm, ?_⟩
    simp only [List.append_assoc] at h ⊢
    exact h.1.symm
  case _ => exact absurd h (by simp)

/-- Packing a symbol whose name exceeds 8 characters appends the name to the
string table through `COFFGenerator.string` and stores a zero sentinel
followed by the returned offset. -/
theorem COFFSymbol.pack_long {sym : COFFSymbol} {g g' : COFFGenerator}
    {rec : List Nat} (hs : 8 < sym.name.length)
    (h : sym.pack g = some (rec, g')) :
    g.string sym.name = some (g.strings.length, g') ∧
    rec = packS 8 (ljust 8 (le32 0 ++ le32 g.strings.length)) ++
          (le32 sym.value ++ (le16 sym.sectionIdx ++
           (le16 sym.type_ ++ [sym.storage, 0]))) := by
  unfold COFFSymbol.pack at h
  rw [if_neg (by omega)] at h
  split at h
  case _ => exact absurd h (by simp)
  case _ off g1 hstr =>
    obtain ⟨hoff, -, -⟩ := COFFGenerator.string_eq_some hstr
    subst hoff
    split at h
    case _ z0 o v sec ty st z hz0 ho hv hsec hty hst hz =>
      obtain ⟨-, rfl⟩ := packU32_eq_some.mp hz0
      obtain ⟨-, rfl⟩ := packU32_eq_some.mp ho
      obtain ⟨-, rfl⟩ := packU32_eq_some.mp hv
      obtain ⟨-, rfl⟩ := packU16_eq_some.mp hsec
      obtain ⟨-, rfl⟩ := packU16_eq_some.mp hty
      obtain ⟨-, rfl⟩ := packU8_eq_some.mp hst
      obtain ⟨-, rfl⟩ := packU8_eq_some.mp hz
      simp only [Option.some.injEq, Prod.mk.injEq] at h
      refine ⟨by rw [hstr, h.2], ?_⟩
      simp only [List.append_assoc] at h ⊢
      exact h.1.symm
    case _ => exact absurd h (by simp)

theorem COFFSymbol.pack_length_symbol {sym : COFFSymbol} {g g' : COFFGenerator}
    {rec : List Nat} (h : sym.pack g = some (rec, g')) : rec.length = 18 := by
  by_cases hs : sym.name.length ≤ 8
  · obtain ⟨-, rfl⟩ := COFFSymbol.pack_short hs h
    simp [packS_length, le32, le16]
  · obtain ⟨-, rfl⟩ := COFFSymbol.pack_long (by omega) h
    simp [packS_length, le32, le16]

/-- Packing a symbol can change only the generator strings. -/
theorem COFFSymbol.pack_frame {sym : COFFSymbol} {g g' : COFFGenerator}
    {rec : List Nat} (h : sym.pack g = some (rec, g')) :
    g'.sections = g.sections ∧ g'.symbols = g.symbols ∧
    g'.is64bit = g.is64bit ∧ g'.header = g.header := by
  by_cases hs : sym.name.length ≤ 8
  · obtain ⟨rfl, -⟩ := COFFSymbol.pack_short hs h
    exact ⟨rfl, rfl, rfl, rfl⟩
  · obtain ⟨hstr, -⟩ := COFFSymbol.pack_long (by omega) h
    obtain ⟨-, -, rfl⟩ := COFFGenerator.string_eq_some hstr
    exact ⟨rfl, rfl, rfl, rfl⟩

/-! ### Dict lemmas -/

theorem dictGet_nil (k : List Nat) : dictGet [] k = none := rfl

theorem dictGet_cons (p : List Nat × Nat) (rest : Dict) (k : List Nat) :
    dictGet (p :: rest) k = if p.1 == k then some p.2 else dictGet rest k := by
  by_cases hp : p.1 == k
  · simp [dictGet, List.find?_cons_of_pos, hp]
  · simp only [dictGet, List.find?_cons_of_neg _ hp]
    simp [hp, dictGet]

theorem dictGet_dictSet_self (d : Dict) (k : List Nat) (v : Nat) :
    dictGet (dictSet d k v) k = some v := by
  induction d with
  | nil => simp [dictSet, dictGet_cons, dictGet_nil]
  | cons p rest ih =>
    by_cases hp : p.1 == k
    · simp [dictSet, hp, dictGet_cons]
    · simp only [dictSet, hp, Bool.false_eq_true, if_false]
      rw [dictGet_cons]
      simp [hp, ih]

theorem dictGet_dictSet_other {k' k : List Nat} (hne : k' ≠ k) (d : Dict)
    (v : Nat) : dictGet (dictSet d k v) k' = dictGet d k' := by
  have hkk : (k == k') = false := by simpa using Ne.symm hne
  induction d with
  | nil => simp [dictSet, dictGet_cons, dictGet_nil, hkk]
  | cons p rest ih =>
    by_cases hp : p.1 == k
    · have hpk : p.1 = k := by simpa using hp
      simp [dictSet, hp, dictGet_cons, hkk, hpk]
    · simp only [dictSet, hp, Bool.false_eq_true, if_false]
      rw [dictGet_cons, dictGet_cons]
      by_cases hq : p.1 == k'
      · simp [hq]
      · simp [hq, ih]

theorem mem_dictSet {d : Dict} {k : List Nat} {v : Nat} {kv : List Nat × Nat}
    (h : kv ∈ dictSet d k v) : kv ∈ d ∨ kv = (k, v) := by
  induction d with
  | nil => simpa [dictSet] using h
  | cons p rest ih =>
    by_cases hp : p.1 == k
    · simp only [dictSet, hp, if_true] at h
      rcases List.mem_cons.mp h with h | h
      · exact Or.inr h
      · exact Or.inl (List.mem_cons_of_mem p h)
    · simp only [dictSet, hp, Bool.false_eq_true, if_false] at h
      rcases List.mem_cons.mp h with h | h
      · exact Or.inl (h ▸ List.mem_cons_self p rest)
      · rcases ih h with h | h
        · exact Or.inl (List.mem_cons_of_mem p h)
        · exact Or.inr h

theorem dictGet_bound {d : Dict} {k : List Nat} {v : Nat} {P : Nat → Prop}
    (hall : ∀ kv, kv ∈ d → P kv.2) (h : dictGet d k = some v) : P v := by
  unfold dictGet at h
  cases hf : d.find? (fun p => p.1 == k) with
  | none => rw [hf] at h; simp at h
  | some kv =>
    rw [hf] at h
    have hv : kv.2 = v := by simpa using h
    exact hv ▸ hall kv (List.mem_of_find?_eq_some hf)

theorem dictGet_bound40 {d : Dict} {k : List Nat} {v B0 : Nat}
    (hall : ∀ kv, kv ∈ d → kv.2 + 40 ≤ B0) (h : dictGet d k = some v) :
    v + 40 ≤ B0 := by
  unfold dictGet at h
  cases hf : d.find? (fun p => p.1 == k) with
  | none => rw [hf] at h; simp at h
  | some kv =>
    rw [hf] at h
    have hv : kv.2 = v := by simpa using h
    exact hv ▸ hall kv (List.mem_of_find?_eq_some hf)
/-! ### Layout-pass lemmas -/

/-- Total length of all section data buffers. -/
def sumData (secs : List COFFSection) : Nat :=
  (secs.map (fun s => s.data.length)).sum

/-- Total number of relocations over all sections. -/
def sumRelocs (secs : List COFFSection) : Nat :=
  (secs.map (fun s => s.relocations.length)).sum

theorem sumData_nil : sumData [] = 0 := rfl

theorem sumData_cons (s : COFFSection) (l : List COFFSection) :
    sumData (s :: l) = s.data.length + sumData l := by
  simp [sumData]

theorem sumRelocs_nil : sumRelocs [] = 0 := rfl

theorem sumRelocs_cons (s : COFFSection) (l : List COFFSection) :
    sumRelocs (s :: l) = s.relocations.length + sumRelocs l := by
  simp [sumRelocs]

theorem emitSectionHeaders_spec :
    ∀ {secs : List COFFSection} {buf : List Nat} {d : Dict} {buf' : List Nat}
      {d' : Dict}, emitSectionHeaders secs buf d = some (buf', d') →
      (∃ ext, buf' = buf ++ ext) ∧
      buf'.length = buf.length + 40 * secs.length ∧
      (∀ kv, kv ∈ d' → kv ∈ d ∨ kv.2 + 40 ≤ buf'.length) := by
  intro secs
  induction secs with
  | nil =>
    intro buf d buf' d' h
    simp only [emitSectionHeaders, Option.some.injEq, Prod.mk.injEq] at h
    obtain ⟨rfl, rfl⟩ := h
    exact ⟨⟨[], by simp⟩, by simp, fun kv hkv => Or.inl hkv⟩
  | cons s rest ih =>
    intro buf d buf' d' h
    rw [emitSectionHeaders] at h
    cases hp : s.pack with
    | none => rw [hp] at h; exact absurd h (by simp)
    | some ph =>
      rw [hp] at h
      obtain ⟨⟨ext, hext⟩, hlen, hdict⟩ := ih h
      have hph : ph.length = 40 := COFFSection.pack_length_section hp
      have hba : (buf ++ ph).length = buf.length + 40 := by simp [hph]
      refine ⟨⟨ph ++ ext, by rw [hext, List.append_assoc]⟩, ?_, ?_⟩
      · rw [hlen, hba]
        simp only [List.length_cons]
        ring
      · intro kv hkv
        rcases hdict kv hkv with hkv' | hb
        · rcases mem_dictSet hkv' with h1 | h1
          · exact Or.inl h1
          · right
            rw [h1]
            rw [hlen, hba]
            omega
        · exact Or.inr hb

theorem emitSectionHeaders_dictGet_frame :
    ∀ {secs : List COFFSection} {buf : List Nat} {d : Dict} {buf' : List Nat}
      {d' : Dict}, emitSectionHeaders secs buf d = some (buf', d') →
      ∀ k, (∀ s, s ∈ secs → s.name ≠ k) → dictGet d' k = dictGet d k := by
  intro secs
  induction secs with
  | nil =>
    intro buf d buf' d' h k hk
    simp only [emitSectionHeaders, Option.some.injEq, Prod.mk.injEq] at h
    rw [h.2]
  | cons s rest ih =>
    intro buf d buf' d' h k hk
    rw [emitSectionHeaders] at h
    cases hp : s.pack with
    | none => rw [hp] at h; exact absurd h (by simp)
    | some ph =>
      rw [hp] at h
      rw [ih h k (fun s' hs' => hk s' (List.mem_cons_of_mem s hs'))]
      exact dictGet_dictSet_other
        (Ne.symm (hk s (List.mem_cons_self s rest))) d buf.length

theorem emitSectionHeaders_dict_distinct :
    ∀ {secs : List COFFSection} {buf : List Nat} {d : Dict} {buf' : List Nat}
      {d' : Dict}, emitSectionHeaders secs buf d = some (buf', d') →
      secs.Pairwise (fun a b => a.name ≠ b.name) →
      ∀ i (hi : i < secs.length),
        dictGet d' (secs[i].name) = some (buf.length + 40 * i) := by
  intro secs
  induction secs with
  | nil => intro _ _ _ _ _ _ i hi; exact absurd hi (by simp)
  | cons s rest ih =>
    intro buf d buf' d' h hpw i hi
    rw [emitSectionHeaders] at h
    cases hp : s.pack with
    | none => rw [hp] at h; exact absurd h (by simp)
    | some ph =>
      rw [hp] at h
      have hph : ph.length = 40 := COFFSection.pack_length_section hp
      have hba : (buf ++ ph).length = buf.length + 40 := by simp [hph]
      rcases List.pairwise_cons.mp hpw with ⟨hhead, htail⟩
      match i with
      | 0 =>
        simp only [List.getElem_cons_zero, Nat.mul_zero, Nat.add_zero]
        rw [emitSectionHeaders_dictGet_frame h s.name
          (fun s' hs' => Ne.symm (hhead s' hs'))]
        exact dictGet_dictSet_self d s.name buf.length
      | i + 1 =>
        have hi' : i < rest.length := by simpa using hi
        have hlook := ih h htail i hi'
        simp only [List.getElem_cons_succ]
        rw [hlook, hba]
        congr 1
        ring

theorem emitSectionData_length :
    ∀ {secs : List COFFSection} {buf : List Nat} {d : Dict} {out : List Nat}
      {B0 : Nat}, emitSectionData secs buf d = some out →
      (∀ kv, kv ∈ d → kv.2 + 40 ≤ B0) → B0 ≤ buf.length →
      out.length = buf.length + sumData secs := by
  intro secs
  induction secs with
  | nil =>
    intro buf d out B0 h _ _
    simp only [emitSectionData, Option.some.injEq] at h
    rw [← h, sumData_nil]
    omega
  | cons s rest ih =>
    intro buf d out B0 h hb hB
    rw [emitSectionData] at h
    cases hg : dictGet d s.name with
    | none => rw [hg] at h; exact absurd h (by simp)
    | some header =>
      rw [hg] at h
      cases hp : packU32 buf.length with
      | none => rw [hp] at h; exact absurd h (by simp)
      | some p =>
        rw [hp] at h
        obtain ⟨hlt, rfl⟩ := packU32_eq_some.mp hp
        have hbound : header + 40 ≤ B0 :=
          dictGet_bound40 (fun kv hkv => hb kv hkv) hg
        have hfit : header + 20 + (le32 buf.length).length ≤ buf.length := by
          rw [le32_length]; omega
        have hplen : (patch buf (header + 20) (le32 buf.length)).length
            = buf.length := patch_length hfit
        have hrec := ih h hb
          (by rw [List.length_append, hplen]; omega)
        rw [hrec, List.length_append, hplen, sumData_cons]
        ring

theorem packRelocs_spec :
    ∀ {rs : List COFFRelocation} {buf out : List Nat},
      packRelocs rs buf = some out →
      ∃ ext, out = buf ++ ext ∧ ext.length = 10 * rs.length := by
  intro rs
  induction rs with
  | nil =>
    intro buf out h
    simp only [packRelocs, Option.some.injEq] at h
    exact ⟨[], by simp [← h], by simp⟩
  | cons r rest ih =>
    intro buf out h
    rw [packRelocs] at h
    cases hp : r.pack with
    | none => rw [hp] at h; exact absurd h (by simp)
    | some rb =>
      rw [hp] at h
      obtain ⟨ext, hext, hlen⟩ := ih h
      have hrb : rb.length = 10 := COFFRelocation.pack_eq_some_reloc hp
      refine ⟨rb ++ ext, by rw [hext, List.append_assoc], ?_⟩
      simp only [List.length_append, List.length_cons, hrb, hlen]
      ring

theorem emitRelocs_length :
    ∀ {secs : List COFFSection} {buf : List Nat} {d : Dict} {out : List Nat}
      {B0 : Nat}, emitRelocs secs buf d = some out →
      (∀ kv, kv ∈ d → kv.2 + 40 ≤ B0) → B0 ≤ buf.length →
      out.length = buf.length + 10 * sumRelocs secs := by
  intro secs
  induction secs with
  | nil =>
    intro buf d out B0 h _ _
    simp only [emitRelocs, Option.some.injEq] at h
    rw [← h, sumRelocs_nil]
    omega
  | cons s rest ih =>
    intro buf d out B0 h hb hB
    rw [emitRelocs] at h
    split at h
    case _ hr =>
      split at h
      case _ => exact absurd h (by simp)
      case _ header hg =>
        split at h
        case _ => exact absurd h (by simp)
        case _ p hp =>
          split at h
          case _ => exact absurd h (by simp)
          case _ buf2 hpr =>
            obtain ⟨hlt, rfl⟩ := packU16_eq_some.mp hp
            have hbound : header + 40 ≤ B0 :=
              dictGet_bound40 (fun kv hkv => hb kv hkv) hg
            have hfit : header + 24 + (le16 buf.length).length ≤ buf.length := by
              rw [le16_length]; omega
            have hplen : (patch buf (header + 24) (le16 buf.length)).length
                = buf.length := patch_length hfit
            obtain ⟨ext, hext, hextlen⟩ := packRelocs_spec hpr
            have hb2 : buf2.length = buf.length + 10 * s.relocations.length := by
              rw [hext, List.length_append, hplen, hextlen]
            have hrec := ih h hb (by omega)
            rw [hrec, hb2, sumRelocs_cons]
            ring
    case _ hr =>
      have hrec := ih h hb hB
      rw [hrec, sumRelocs_cons]
      have hz : s.relocations.length = 0 := by omega
      rw [hz]
      omega

theorem emitSymbols_spec :
    ∀ {syms : List COFFSymbol} {buf : List Nat} {g : COFFGenerator}
      {out : List Nat} {g' : COFFGenerator},
      emitSymbols syms buf g = some (out, g') →
      (∃ ext, out = buf ++ ext ∧ ext.length = 18 * syms.length) ∧
      g'.sections = g.sections ∧ g'.symbols = g.symbols ∧
      g'.is64bit = g.is64bit ∧ g'.header = g.header ∧
      ((∀ sym, sym ∈ syms → sym.name.length ≤ 8) → g'.strings = g.strings) := by
  intro syms
  induction syms with
  | nil =>
    intro buf g out g' h
    simp only [emitSymbols, Option.some.injEq, Prod.mk.injEq] at h
    obtain ⟨rfl, rfl⟩ := h
    exact ⟨⟨[], by simp⟩, rfl, rfl, rfl, rfl, fun _ => rfl⟩
  | cons sym rest ih =>
    intro buf g out g' h
    rw [emitSymbols] at h
    cases hp : sym.pack g with
    | none => rw [hp] at h; exact absurd h (by simp)
    | some r =>
      rw [hp] at h
      obtain ⟨sb, g1, rfl⟩ : ∃ sb g1, r = (sb, g1) := ⟨r.1, r.2, rfl⟩
      obtain ⟨⟨ext, hext, hextlen⟩, hsec, hsym, hbit, hhd, hstr⟩ := ih h
      have hsb : sb.length = 18 := COFFSymbol.pack_length_symbol hp
      obtain ⟨fsec, fsym, fbit, fhd⟩ := COFFSymbol.pack_frame hp
      refine ⟨⟨sb ++ ext, by rw [hext, List.append_assoc], ?_⟩, ?_, ?_, ?_, ?_, ?_⟩
      · simp only [List.length_append, List.length_cons, hsb, hextlen]
        ring
      · rw [hsec, fsec]
      · rw [hsym, fsym]
      · rw [hbit, fbit]
      · rw [hhd, fhd]
      · intro hshort
        have hg1 : g1 = g :=
          (COFFSymbol.pack_short
            (hshort sym (List.mem_cons_self sym rest)) hp).1
        rw [hstr (fun s hs => hshort s (List.mem_cons_of_mem sym hs)), hg1]

/-! ### Byte-level effect of the data and relocation passes -/

theorem emitSectionData_bytes :
    ∀ {secs : List COFFSection} {buf : List Nat} {d : Dict} {out : List Nat}
      (h0 B0 : Nat),
      emitSectionData secs buf d = some out →
      (∀ i (hi : i < secs.length),
        dictGet d (secs[i].name) = some (h0 + 40 * i)) →
      h0 + 40 * secs.length ≤ B0 → B0 ≤ buf.length →
      (∀ k, k < buf.length →
        (∀ i, i < secs.length → k < h0 + 40 * i + 20 ∨ h0 + 40 * i + 24 ≤ k) →
        out[k]? = buf[k]?) ∧
      (∀ i (hi : i < secs.length), ∀ j, j < 4 →
        out[h0 + 40 * i + 20 + j]? =
          (le32 (buf.length + sumData (secs.take i)))[j]?) := by
  intro secs
  induction secs with
  | nil =>
    intro buf d out h0 B0 h _ _ _
    simp only [emitSectionData, Option.some.injEq] at h
    subst h
    exact ⟨fun k _ _ => rfl, fun i hi => absurd hi (by simp)⟩
  | cons s rest ih =>
    intro buf d out h0 B0 h hd hfit hB
    simp only [List.length_cons] at hfit
    rw [emitSectionData] at h
    split at h
    case _ => exact absurd h (by simp)
    case _ header hg =>
      split at h
      case _ => exact absurd h (by simp)
      case _ p hp =>
        obtain ⟨hlt, rfl⟩ := packU32_eq_some.mp hp
        have hh0 : header = h0 := by
          have h1 := hd 0 (by simp)
          simp only [List.getElem_cons_zero, Nat.mul_zero, Nat.add_zero] at h1
          rw [h1] at hg
          exact (Option.some.inj hg).symm
        subst hh0
        have hfit0 : header + 20 + (le32 buf.length).length ≤ buf.length := by
          rw [le32_length]; omega
        have hplen : (patch buf (header + 20) (le32 buf.length)).length
            = buf.length := patch_length hfit0
        have hb1len :
            (patch buf (header + 20) (le32 buf.length) ++ s.data).length
            = buf.length + s.data.length := by
          rw [List.length_append, hplen]
        have hd' : ∀ i (hi : i < rest.length),
            dictGet d (rest[i].name) = some (header + 40 + 40 * i) := by
          intro i hi
          have h2 := hd (i + 1) (by simp only [List.length_cons]; omega)
          simp only [List.getElem_cons_succ] at h2
          rw [h2]
          congr 1
          ring
        obtain ⟨ihpres, ihset⟩ := ih (header + 40) B0 h hd'
          (show header + 40 + 40 * rest.length ≤ B0 by omega)
          (by rw [hb1len]; omega)
        constructor
        · intro k hk hranges
          have hrange' : ∀ i, i < rest.length →
              k < header + 40 + 40 * i + 20 ∨ header + 40 + 40 * i + 24 ≤ k := by
            intro i hi
            have := hranges (i + 1) (by simp only [List.length_cons]; omega)
            omega
          rw [ihpres k (by rw [hb1len]; omega) hrange']
          rw [List.getElem?_append_left (by rw [hplen]; exact hk)]
          refine patch_getElem?_outside hfit0 ?_
          rw [le32_length]
          have := hranges 0 (by simp)
          omega
        · intro i hi j hj
          match i with
          | 0 =>
            simp only [Nat.mul_zero, Nat.add_zero, List.take_zero, sumData_nil]
            have hpos : header + 20 + j < buf.length := by
              rw [le32_length] at hfit0; omega
            have hrange' : ∀ i2, i2 < rest.length →
                header + 20 + j < header + 40 + 40 * i2 + 20 ∨
                  header + 40 + 40 * i2 + 24 ≤ header + 20 + j := by
              intro i2 hi2; omega
            rw [ihpres (header + 20 + j) (by rw [hb1len]; omega) hrange']
            rw [List.getElem?_append_left (by rw [hplen]; exact hpos)]
            exact patch_getElem?_mid (by rw [le32_length]; omega) (by omega)
          | i + 1 =>
            have hi' : i < rest.length := by
              simp only [List.length_cons] at hi; omega
            have hset := ihset i hi' j hj
            have hidx : header + 40 * (i + 1) + 20 + j
                = header + 40 + 40 * i + 20 + j := by ring
            have hval :
                (patch buf (header + 20) (le32 buf.length) ++ s.data).length +
                  sumData (rest.take i)
                = buf.length + sumData ((s :: rest).take (i + 1)) := by
              rw [hb1len, List.take_succ_cons, sumData_cons]
              ring
            rw [hidx, hset, hval]

theorem emitRelocs_bytes :
    ∀ {secs : List COFFSection} {buf : List Nat} {d : Dict} {out : List Nat}
      (h0 B0 : Nat),
      emitRelocs secs buf d = some out →
      (∀ i (hi : i < secs.length),
        dictGet d (secs[i].name) = some (h0 + 40 * i)) →
      h0 + 40 * secs.length ≤ B0 → B0 ≤ buf.length →
      ∀ k, k < buf.length →
        (∀ i, i < secs.length → k < h0 + 40 * i + 24 ∨ h0 + 40 * i + 26 ≤ k) →
        out[k]? = buf[k]? := by
  intro secs
  induction secs with
  | nil =>
    intro buf d out h0 B0 h _ _ _ k _ _
    simp only [emitRelocs, Option.some.injEq] at h
    subst h
    rfl
  | cons s rest ih =>
    intro buf d out h0 B0 h hd hfit hB k hk hranges
    simp only [List.length_cons] at hfit
    have hd' : ∀ i (hi : i < rest.length),
        dictGet d (rest[i].name) = some (h0 + 40 + 40 * i) := by
      intro i hi
      have h2 := hd (i + 1) (by simp only [List.length_cons]; omega)
      simp only [List.getElem_cons_succ] at h2
      rw [h2]
      congr 1
      ring
    have hrange' : ∀ i, i < rest.length →
        k < h0 + 40 + 40 * i + 24 ∨ h0 + 40 + 40 * i + 26 ≤ k := by
      intro i hi
      have := hranges (i + 1) (by simp only [List.length_cons]; omega)
      omega
    rw [emitRelocs] at h
    split at h
    case _ hr =>
      split at h
      case _ => exact absurd h (by simp)
      case _ header hg =>
        split at h
        case _ => exact absurd h (by simp)
        case _ p hp =>
          split at h
          case _ => exact absurd h (by simp)
          case _ buf2 hpr =>
            obtain ⟨hlt, rfl⟩ := packU16_eq_some.mp hp
            have hh0 : header = h0 := by
              have h1 := hd 0 (by simp)
              simp only [List.getElem_cons_zero, Nat.mul_zero, Nat.add_zero] at h1
              rw [h1] at hg
              exact (Option.some.inj hg).symm
            subst hh0
            have hfit0 : header + 24 + (le16 buf.length).length ≤ buf.length := by
              rw [le16_length]; omega
            have hplen : (patch buf (header + 24) (le16 buf.length)).length
                = buf.length := patch_length hfit0
            obtain ⟨ext, hext, hextlen⟩ := packRelocs_spec hpr
            have hb2len : buf2.length = buf.length + 10 * s.relocations.length := by
              rw [hext, List.length_append, hplen, hextlen]
            rw [ih (header + 40) B0 h hd'
                (show header + 40 + 40 * rest.length ≤ B0 by omega)
                (by omega) k (by omega) hrange']
            rw [hext]
            rw [List.getElem?_append_left (by rw [hplen]; exact hk)]
            refine patch_getElem?_outside hfit0 ?_
            rw [le16_length]
            have := hranges 0 (by simp)
            omega
    case _ hr =>
      exact ih (h0 + 40) B0 h hd'
        (show h0 + 40 + 40 * rest.length ≤ B0 by omega) hB k hk hrange'

/-! ### Emit-level lemmas -/

theorem COFFGenerator.emit_inv {g : COFFGenerator} {t : Nat} {b : List Nat}
    {g' : COFFGenerator} (h : g.emit t = some (b, g')) :
    ∃ buf1 d buf2 buf3 buf4 g2 hp h2,
      emitSectionHeaders g.sections (List.replicate 20 0) [] = some (buf1, d) ∧
      emitSectionData g.sections buf1 d = some buf2 ∧
      emitRelocs g.sections buf2 d = some buf3 ∧
      emitSymbols g.symbols buf3
        { g with header := { g.header with PointerToSymbolTable := buf3.length } }
        = some (buf4, g2) ∧
      COFFHeader.pack g2.header t = some (hp, h2) ∧
      b = patch (buf4 ++ g2.strings) 0 hp ∧ g' = { g2 with header := h2 } := by
  rw [COFFGenerator.emit] at h
  split at h
  case _ => exact absurd h (by simp)
  case _ buf1 d h1 =>
    split at h
    case _ => exact absurd h (by simp)
    case _ buf2 hsd =>
      split at h
      case _ => exact absurd h (by simp)
      case _ buf3 hrl =>
        split at h
        case _ => exact absurd h (by simp)
        case _ buf4 g2 hsy =>
          split at h
          case _ => exact absurd h (by simp)
          case _ hp hh2 hhp =>
            simp only [Option.some.injEq, Prod.mk.injEq] at h
            exact ⟨buf1, d, buf2, buf3, buf4, g2, hp, hh2, h1, hsd, hrl,
                   hsy, hhp, h.1.symm, h.2.symm⟩

theorem COFFGenerator.emit_length {g : COFFGenerator} {t : Nat} {b : List Nat}
    {g' : COFFGenerator} (h : g.emit t = some (b, g')) :
    b.length = 20 + 40 * g.sections.length + sumData g.sections +
      10 * sumRelocs g.sections + 18 * g.symbols.length + g'.strings.length := by
  obtain ⟨buf1, d, buf2, buf3, buf4, g2, hp, h2, h1, hsd, hrl, hsy, hhp, hb, hg'⟩ :=
    COFFGenerator.emit_inv h
  obtain ⟨⟨ext1, hext1⟩, hlen1, hdict⟩ := emitSectionHeaders_spec h1
  have hdict' : ∀ kv, kv ∈ d → kv.2 + 40 ≤ buf1.length := by
    intro kv hkv
    rcases hdict kv hkv with hkv | hkv
    · exact absurd hkv (by simp)
    · exact hkv
  have hlen1' : buf1.length = 20 + 40 * g.sections.length := by
    simpa using hlen1
  have hlen2 := emitSectionData_length hsd hdict' (Nat.le_refl _)
  have hlen3 := emitRelocs_length hrl hdict' (by omega)
  obtain ⟨⟨ext4, hext4, hext4len⟩, -, -, -, -, -⟩ := emitSymbols_spec hsy
  have hlen4 : buf4.length = buf3.length + 18 * g.symbols.length := by
    rw [hext4, List.length_append, hext4len]
  have hhp20 : hp.length = 20 := COFFHeader.pack_length_header hhp
  have hb5 : (buf4 ++ g2.strings).length = buf4.length + g2.strings.length := by
    simp
  have hfive : 0 + hp.length ≤ (buf4 ++ g2.strings).length := by
    rw [hhp20, hb5]; omega
  have hstr : g'.strings = g2.strings := by rw [hg']
  rw [hb, patch_length hfive, hb5, hlen4, hlen3, hlen2, hlen1', hstr]

theorem COFFGenerator.emit_spec {g : COFFGenerator} {t : Nat} {b : List Nat}
    {g' : COFFGenerator} (h : g.emit t = some (b, g')) :
    g'.sections = g.sections ∧ g'.symbols = g.symbols ∧
    g'.is64bit = g.is64bit ∧
    (∃ p, g'.header = { g.header with PointerToSymbolTable := p, TimeDateStamp := t }) ∧
    ((∀ sym, sym ∈ g.symbols → sym.name.length ≤ 8) →
      g'.strings = g.strings) := by
  obtain ⟨buf1, d, buf2, buf3, buf4, g2, hp, h2, h1, hsd, hrl, hsy, hhp, hb, hg'⟩ :=
    COFFGenerator.emit_inv h
  obtain ⟨-, hsec, hsym, hbit, hhd, hstr⟩ := emitSymbols_spec hsy
  obtain ⟨hh2, -, -⟩ := COFFHeader.pack_eq_some_header hhp
  subst hg'
  refine ⟨by simpa using hsec, by simpa using hsym, by simpa using hbit,
          ⟨buf3.length, ?_⟩, fun hs => by simpa using hstr hs⟩
  show h2 = _
  rw [hh2, hhd]

theorem emitSectionData_length_ge :
    ∀ {secs : List COFFSection} {buf : List Nat} {d : Dict} {out : List Nat},
      emitSectionData secs buf d = some out → buf.length ≤ out.length := by
  intro secs
  induction secs with
  | nil =>
    intro buf d out h
    simp only [emitSectionData, Option.some.injEq] at h
    rw [h]
  | cons s rest ih =>
    intro buf d out h
    rw [emitSectionData] at h
    split at h
    case _ => exact absurd h (by simp)
    case _ header hg =>
      split at h
      case _ => exact absurd h (by simp)
      case _ p hp =>
        have := ih h
        have hge := patch_length_ge buf p (header + 20)
        simp only [List.length_append] at this
        omega

theorem emitRelocs_length_ge :
    ∀ {secs : List COFFSection} {buf : List Nat} {d : Dict} {out : List Nat},
      emitRelocs secs buf d = some out → buf.length ≤ out.length := by
  intro secs
  induction secs with
  | nil =>
    intro buf d out h
    simp only [emitRelocs, Option.some.injEq] at h
    rw [h]
  | cons s rest ih =>
    intro buf d out h
    rw [emitRelocs] at h
    split at h
    case _ hr =>
      split at h
      case _ => exact absurd h (by simp)
      case _ header hg =>
        split at h
        case _ => exact absurd h (by simp)
        case _ p hp =>
          split at h
          case _ => exact absurd h (by simp)
          case _ buf2 hpr =>
            have h2 := ih h
            obtain ⟨ext, hext, -⟩ := packRelocs_spec hpr
            have hge := patch_length_ge buf p (header + 24)
            rw [hext] at h2
            simp only [List.length_append] at h2
            omega
    case _ hr => exact ih h

/-- Offset fidelity of the data-pointer patches: when all section names are
distinct, the four bytes at offset `sectionHeaderOffset + 20` of the emitted
buffer are the little-endian offset at which that section's data was
appended. -/
theorem COFFGenerator.emit_data_pointer {g : COFFGenerator} {t : Nat}
    {b : List Nat} {g' : COFFGenerator}
    (hnd : g.sections.Pairwise (fun a b => a.name ≠ b.name))
    (h : g.emit t = some (b, g')) :
    ∀ i (hi : i < g.sections.length),
      read4 b (20 + 40 * i + 20) =
        le32 (20 + 40 * g.sections.length + sumData (g.sections.take i)) := by
  obtain ⟨buf1, d, buf2, buf3, buf4, g2, hp, h2, h1, hsd, hrl, hsy, hhp, hb, hg'⟩ :=
    COFFGenerator.emit_inv h
  intro i hi
  obtain ⟨⟨ext1, hext1⟩, hlen1, hdict⟩ := emitSectionHeaders_spec h1
  have hlen1' : buf1.length = 20 + 40 * g.sections.length := by simpa using hlen1
  have hdict' : ∀ kv, kv ∈ d → kv.2 + 40 ≤ buf1.length := by
    intro kv hkv
    rcases hdict kv hkv with hkv | hkv
    · exact absurd hkv (by simp)
    · exact hkv
  have hdd : ∀ j (hj : j < g.sections.length),
      dictGet d (g.sections[j].name) = some (20 + 40 * j) := by
    intro j hj
    have := emitSectionHeaders_dict_distinct h1 hnd j hj
    simpa using this
  obtain ⟨pres2, set2⟩ := emitSectionData_bytes 20 buf1.length hsd hdd
    (by omega) (Nat.le_refl _)
  have hlen2 : buf2.length = buf1.length + sumData g.sections :=
    emitSectionData_length hsd hdict' (Nat.le_refl _)
  have hlen3ge : buf2.length ≤ buf3.length := emitRelocs_length_ge hrl
  obtain ⟨⟨ext4, hext4, hext4len⟩, -, -, -, -, -⟩ := emitSymbols_spec hsy
  have hhp20 : hp.length = 20 := COFFHeader.pack_length_header hhp
  have hchain : ∀ j, j < 4 →
      b[20 + 40 * i + 20 + j]? =
        (le32 (buf1.length + sumData (g.sections.take i)))[j]? := by
    intro j hj
    have hposlt : 20 + 40 * i + 20 + j < buf1.length := by
      rw [hlen1']; omega
    have hb2 := set2 i hi j hj
    have hb3 : buf3[20 + 40 * i + 20 + j]? = buf2[20 + 40 * i + 20 + j]? := by
      refine emitRelocs_bytes 20 buf1.length hrl hdd (by omega) (by omega)
        (20 + 40 * i + 20 + j) (by omega) ?_
      intro i2 hi2
      omega
    have hb4 : buf4[20 + 40 * i + 20 + j]? = buf3[20 + 40 * i + 20 + j]? := by
      rw [hext4]
      exact List.getElem?_append_left (by omega)
    have hb5 : (buf4 ++ g2.strings)[20 + 40 * i + 20 + j]?
        = buf4[20 + 40 * i + 20 + j]? := by
      refine List.getElem?_append_left ?_
      rw [hext4, List.length_append]
      omega
    have hbfin : b[20 + 40 * i + 20 + j]?
        = (buf4 ++ g2.strings)[20 + 40 * i + 20 + j]? := by
      rw [hb]
      refine patch_getElem?_right ?_ (by omega)
      rw [hhp20]
      simp only [List.length_append]
      rw [hext4, List.length_append]
      omega
    rw [hbfin, hb5, hb4, hb3, hb2]
  have e0 := hchain 0 (by omega)
  have e1 := hchain 1 (by omega)
  have e2 := hchain 2 (by omega)
  have e3 := hchain 3 (by omega)
  rw [Nat.add_zero] at e0
  rw [← hlen1']
  exact read4_eq (e0.trans rfl) (e1.trans rfl) (e2.trans rfl) (e3.trans rfl)

/-! ### The string-table prefix invariant -/

/-- Invariant of the shared string table: its first four bytes are the
little-endian encoding of its own total length. -/
def stringsInv (g : COFFGenerator) : Prop :=
  g.strings.take 4 = le32 g.strings.length

theorem stringsInv_length {g : COFFGenerator} (h : stringsInv g) :
    4 ≤ g.strings.length := by
  have hl := congrArg List.length h
  simp only [List.length_take, le32_length] at hl
  omega

theorem stringsInv_mk {g : COFFGenerator} {X : List Nat}
    (h : X.take 4 = le32 X.length) : stringsInv { g with strings := X } := h

theorem COFFGenerator.string_stringsInv {g : COFFGenerator} {s : List Nat}
    {off : Nat} {g' : COFFGenerator} (hi : stringsInv g)
    (h : g.string s = some (off, g')) : stringsInv g' := by
  obtain ⟨-, hlt, rfl⟩ := COFFGenerator.string_eq_some h
  have h4 : 4 ≤ g.strings.length := stringsInv_length hi
  refine stringsInv_mk ?_
  rw [List.take_append_of_le_length (by rw [le32_length]),
      List.take_of_length_le (by rw [le32_length])]
  congr 1
  simp only [List.length_append, List.length_drop, le32_length,
             List.length_cons, List.length_nil]
  omega

theorem COFFSymbol.pack_stringsInv {sym : COFFSymbol} {g g' : COFFGenerator}
    {rec : List Nat} (hi : stringsInv g) (h : sym.pack g = some (rec, g')) :
    stringsInv g' := by
  by_cases hs : sym.name.length ≤ 8
  · rw [(COFFSymbol.pack_short hs h).1]
    exact hi
  · exact COFFGenerator.string_stringsInv hi
      (COFFSymbol.pack_long (by omega) h).1

theorem emitSymbols_stringsInv :
    ∀ {syms : List COFFSymbol} {buf : List Nat} {g : COFFGenerator}
      {out : List Nat} {g' : COFFGenerator},
      emitSymbols syms buf g = some (out, g') → stringsInv g →
      stringsInv g' := by
  intro syms
  induction syms with
  | nil =>
    intro buf g out g' h hi
    simp only [emitSymbols, Option.some.injEq, Prod.mk.injEq] at h
    rw [← h.2]
    exact hi
  | cons sym rest ih =>
    intro buf g out g' h hi
    rw [emitSymbols] at h
    split at h
    case _ => exact absurd h (by simp)
    case _ sb g1 hp =>
      exact ih h (COFFSymbol.pack_stringsInv hi hp)

theorem COFFGenerator.emit_stringsInv {g : COFFGenerator} {t : Nat}
    {b : List Nat} {g' : COFFGenerator} (h : g.emit t = some (b, g'))
    (hi : stringsInv g) : stringsInv g' := by
  obtain ⟨buf1, d, buf2, buf3, buf4, g2, hp, h2, h1, hsd, hrl, hsy, hhp, hb, hg'⟩ :=
    COFFGenerator.emit_inv h
  have hg2 : stringsInv g2 := emitSymbols_stringsInv hsy hi
  rw [hg']
  exact hg2

/-- Generator states reachable through the public operations. Python's
`COFFGenerator.section` returns a section object that stays aliased inside
the generator, so later `COFFSection.emit` and `COFFSection.reloc` calls on
it mutate the generator's section list in place; `mutateSections` models any
such mutation (it can only replace the sections list, never the string
table). -/
inductive Reachable : COFFGenerator → Prop where
  | init (is64bit : Bool) (t0 : Nat) : Reachable (COFFGenerator.mk0 is64bit t0)
  | addSection {g : COFFGenerator} (hg : Reachable g) (name : List Nat)
      (chars : Nat) : Reachable (g.addSection name chars).2
  | addSymbol {g : COFFGenerator} (hg : Reachable g) (name : List Nat)
      (v si ty st : Nat) : Reachable (g.symbol name v si ty st).2
  | addString {g : COFFGenerator} (hg : Reachable g) {s : List Nat}
      {off : Nat} {g' : COFFGenerator} (h : g.string s = some (off, g')) :
      Reachable g'
  | mutateSections {g : COFFGenerator} (hg : Reachable g)
      (secs : List COFFSection) : Reachable { g with sections := secs }
  | emit {g : COFFGenerator} (hg : Reachable g) {t : Nat} {b : List Nat}
      {g' : COFFGenerator} (h : g.emit t = some (b, g')) : Reachable g'

theorem Reachable.stringsInv_holds {g : COFFGenerator} (h : Reachable g) :
    stringsInv g := by
  induction h with
  | init is64bit t0 =>
    show (COFFGenerator.mk0 is64bit t0).strings.take 4
      = le32 (COFFGenerator.mk0 is64bit t0).strings.length
    simp [COFFGenerator.mk0, le32]
  | addSection hg name chars ih => exact ih
  | addSymbol hg name v si ty st ih => exact ih
  | addString hg hs ih => exact COFFGenerator.string_stringsInv ih hs
  | mutateSections hg secs ih => exact ih
  | emit hg he ih => exact COFFGenerator.emit_stringsInv he ih

/-! ### Congruence lemmas: emit reads the input header only through the
fields that survive into the packed record -/

theorem COFFHeader.pack_congr_header {hA hB : COFFHeader} {t : Nat} {b : List Nat}
    {hA' : COFFHeader} (hpk : hA.pack t = some (b, hA'))
    (hM : hA.Machine = hB.Machine)
    (hNS : hA.NumberOfSections = hB.NumberOfSections)
    (hP : hA.PointerToSymbolTable = hB.PointerToSymbolTable)
    (hNSym : hA.NumberOfSymbols = hB.NumberOfSymbols)
    (hO : hA.SizeOfOptionalHeader = hB.SizeOfOptionalHeader)
    (hC : hA.Characteristics = hB.Characteristics) :
    hB.pack t = some (b, { hB with TimeDateStamp := t }) := by
  unfold COFFHeader.pack at hpk ⊢
  split at hpk
  case _ m ns ts p nsym o c hm hns hts hp2 hnsym ho hc =>
    rw [← hM, ← hNS, ← hP, ← hNSym, ← hO, ← hC, hm, hns, hts, hp2, hnsym, ho, hc]
    simp only [Option.some.injEq, Prod.mk.injEq] at hpk
    rw [← hpk.1]
  case _ => exact absurd hpk (by simp)

theorem COFFGenerator.string_congr {gA gB : COFFGenerator} {s : List Nat}
    {off : Nat} {gA' : COFFGenerator} (hstr : gA.strings = gB.strings)
    (h : gA.string s = some (off, gA')) :
    ∃ gB', gB.string s = some (off, gB') ∧ gB'.strings = gA'.strings := by
  obtain ⟨hoff, hlt, rfl⟩ := COFFGenerator.string_eq_some h
  have hlenEq : gA.strings.length = gB.strings.length := by rw [hstr]
  have hpk : packU32 ((gB.strings ++ utf8 s ++ [0]).length)
      = some (le32 ((gB.strings ++ utf8 s ++ [0]).length)) :=
    packU32_eq_some.mpr ⟨by rw [← hstr]; exact hlt, rfl⟩
  refine ⟨{ gB with strings := (le32 (gB.strings ++ utf8 s ++ [0]).length ++ (gB.strings ++ utf8 s ++ [0]).drop 4) }, ?_, ?_⟩
  · unfold COFFGenerator.string
    rw [hpk, hoff, hlenEq]
  · show (le32 (gB.strings ++ utf8 s ++ [0]).length ++
        (gB.strings ++ utf8 s ++ [0]).drop 4) =
      (le32 (gA.strings ++ utf8 s ++ [0]).length ++
        (gA.strings ++ utf8 s ++ [0]).drop 4)
    rw [hstr]

theorem COFFSymbol.pack_congr_symbol {sym : COFFSymbol} {gA gB : COFFGenerator}
    {rec : List Nat} {gA' : COFFGenerator} (hstr : gA.strings = gB.strings)
    (h : sym.pack gA = some (rec, gA')) :
    ∃ gB', sym.pack gB = some (rec, gB') ∧ gB'.strings = gA'.strings := by
  unfold COFFSymbol.pack at h ⊢
  by_cases hs : sym.name.length ≤ 8
  · rw [if_pos hs] at h ⊢
    split at h
    case _ v sec ty st z hv hsec hty hst hz =>
      simp only [Option.some.injEq, Prod.mk.injEq] at h
      refine ⟨gB, ?_, by rw [← h.2, hstr]⟩
      rw [← h.1]
    case _ => exact absurd h (by simp)
  · rw [if_neg hs] at h ⊢
    split at h
    case _ => exact absurd h (by simp)
    case _ off0 g10 hsA =>
      obtain ⟨gB', hstrB, hstrEq⟩ := COFFGenerator.string_congr hstr hsA
      split at h
      case _ z0 o v sec ty st z hz0 ho hv hsec hty hst hz =>
        simp only [Option.some.injEq, Prod.mk.injEq] at h
        refine ⟨gB', ?_, by rw [hstrEq, h.2]⟩
        simp only [hstrB, hz0, ho, hv, hsec, hty, hst, hz, ← h.1]
      case _ => exact absurd h (by simp)

theorem emitSymbols_congr :
    ∀ {syms : List COFFSymbol} {buf : List Nat} {gA gB : COFFGenerator}
      {out : List Nat} {gA' : COFFGenerator},
      gA.strings = gB.strings → emitSymbols syms buf gA = some (out, gA') →
      ∃ gB', emitSymbols syms buf gB = some (out, gB') ∧
        gB'.strings = gA'.strings := by
  intro syms
  induction syms with
  | nil =>
    intro buf gA gB out gA' hstr h
    simp only [emitSymbols, Option.some.injEq, Prod.mk.injEq] at h
    exact ⟨gB, by simp [emitSymbols, h.1], by rw [← h.2, hstr]⟩
  | cons sym rest ih =>
    intro buf gA gB out gA' hstr h
    rw [emitSymbols] at h
    split at h
    case _ => exact absurd h (by simp)
    case _ sb g1 hp =>
      obtain ⟨gB1, hpB, hstr1⟩ := COFFSymbol.pack_congr_symbol hstr hp
      obtain ⟨gB', hrec, hstr2⟩ := ih hstr1.symm h
      refine ⟨gB', ?_, hstr2⟩
      rw [emitSymbols]
      simp only [hpB]
      exact hrec

/-- Emitting depends on the input generator only through its sections,
symbols, strings and the header fields other than the symbol-table pointer
and the timestamp (both are overwritten before being read). -/
theorem COFFGenerator.emit_congr {gA gB : COFFGenerator} {t : Nat}
    {b : List Nat} {gA' : COFFGenerator}
    (hsec : gA.sections = gB.sections) (hsym : gA.symbols = gB.symbols)
    (hstr : gA.strings = gB.strings)
    (hM : gA.header.Machine = gB.header.Machine)
    (hNS : gA.header.NumberOfSections = gB.header.NumberOfSections)
    (hNSym : gA.header.NumberOfSymbols = gB.header.NumberOfSymbols)
    (hO : gA.header.SizeOfOptionalHeader = gB.header.SizeOfOptionalHeader)
    (hC : gA.header.Characteristics = gB.header.Characteristics)
    (h : gA.emit t = some (b, gA')) :
    ∃ gB', gB.emit t = some (b, gB') := by
  obtain ⟨buf1, d, buf2, buf3, buf4, g2, hp, h2, h1, hsd, hrl, hsy, hhp, hb, hg'⟩ :=
    COFFGenerator.emit_inv h
  have hstr1 : ({ gA with header :=
      { gA.header with PointerToSymbolTable := buf3.length } } :
        COFFGenerator).strings =
      ({ gB with header :=
        { gB.header with PointerToSymbolTable := buf3.length } } :
          COFFGenerator).strings := hstr
  obtain ⟨g2B, hsyB, hstr2⟩ := emitSymbols_congr hstr1 hsy
  have hhdA : g2.header = { gA.header with PointerToSymbolTable := buf3.length } :=
    (emitSymbols_spec hsy).2.2.2.2.1
  have hhdB : g2B.header = { gB.header with PointerToSymbolTable := buf3.length } :=
    (emitSymbols_spec hsyB).2.2.2.2.1
  have hhpB : COFFHeader.pack g2B.header t
      = some (hp, { g2B.header with TimeDateStamp := t }) := by
    refine COFFHeader.pack_congr_header hhp ?_ ?_ ?_ ?_ ?_ ?_ <;>
      simp only [hhdA, hhdB] <;> simp [hM, hNS, hNSym, hO, hC]
  rw [hsec] at h1 hsd hrl
  rw [hsym] at hsyB
  refine ⟨{ g2B with header := { g2B.header with TimeDateStamp := t } }, ?_⟩
  rw [COFFGenerator.emit]
  simp only [COFFHeader.size, h1, hsd, hrl, hsyB, hhpB]
  rw [hb, hstr2]

/-- Two successful emissions of the same generator state produce buffers of
equal length that agree everywhere except possibly in the four timestamp
bytes at offsets 4..7. -/
theorem COFFGenerator.emit_timestamp_bytes {g : COFFGenerator} {t1 t2 : Nat}
    {b1 b2 : List Nat} {g1 g2 : COFFGenerator}
    (h1 : g.emit t1 = some (b1, g1)) (h2 : g.emit t2 = some (b2, g2)) :
    b1.length = b2.length ∧ ∀ k, k < 4 ∨ 8 ≤ k → b1[k]? = b2[k]? := by
  obtain ⟨buf1A, dA, buf2A, buf3A, buf4A, g2A, hpA, h2A, h1A, hsdA, hrlA, hsyA,
          hhpA, hbA, hgA'⟩ := COFFGenerator.emit_inv h1
  obtain ⟨buf1B, dB, buf2B, buf3B, buf4B, g2B, hpB, h2B, h1B, hsdB, hrlB, hsyB,
          hhpB, hbB, hgB'⟩ := COFFGenerator.emit_inv h2
  rw [h1A] at h1B
  simp only [Option.some.injEq, Prod.mk.injEq] at h1B
  obtain ⟨hb1eq, hdeq⟩ := h1B
  subst hb1eq
  subst hdeq
  rw [hsdA] at hsdB
  simp only [Option.some.injEq] at hsdB
  subst hsdB
  rw [hrlA] at hrlB
  simp only [Option.some.injEq] at hrlB
  subst hrlB
  rw [hsyA] at hsyB
  simp only [Option.some.injEq, Prod.mk.injEq] at hsyB
  obtain ⟨hb4eq, hg2eq⟩ := hsyB
  subst hb4eq
  subst hg2eq
  obtain ⟨hA', htA, hlayA⟩ := COFFHeader.pack_eq_some_header hhpA
  obtain ⟨hB', htB, hlayB⟩ := COFFHeader.pack_eq_some_header hhpB
  have hpA20 : hpA.length = 20 := COFFHeader.pack_length_header hhpA
  have hpB20 : hpB.length = 20 := COFFHeader.pack_length_header hhpB
  have hbA' : b1 = hpA ++ (buf4A ++ g2A.strings).drop 20 := by
    rw [hbA]
    unfold patch
    rw [hpA20]
    simp
  have hbB' : b2 = hpB ++ (buf4A ++ g2A.strings).drop 20 := by
    rw [hbB]
    unfold patch
    rw [hpB20]
    simp
  constructor
  · rw [hbA', hbB']
    simp [hpA20, hpB20]
  · intro k hk
    rw [hbA', hbB']
    rcases Nat.lt_or_ge k 20 with hk20 | hk20
    · rw [List.getElem?_append_left (by rw [hpA20]; exact hk20),
          List.getElem?_append_left (by rw [hpB20]; exact hk20)]
      rw [hlayA, hlayB]
      rcases hk with hk4 | hk8
      · interval_cases k <;> simp [le16, le32]
      · interval_cases k <;> simp [le16, le32]
    · rw [List.getElem?_append_right (by rw [hpA20]; exact hk20),
          List.getElem?_append_right (by rw [hpB20]; exact hk20),
          hpA20, hpB20]

/-! ### Claim theorems -/

/-- Success of section packing under the struct range bounds. -/
theorem COFFSection.pack_some (s : COFFSection)
    (h1 : s.data.length < 4294967296) (h2 : s.VirtualAddress < 4294967296)
    (h3 : s.relocations.length < 65536)
    (h4 : s.characteristics < 4294967296) : ∃ ph, s.pack = some ph := by
  unfold COFFSection.pack
  rw [packU32_eq_some.mpr ⟨h1, rfl⟩, packU32_eq_some.mpr ⟨h2, rfl⟩,
      packU16_eq_some.mpr ⟨h3, rfl⟩, packU32_eq_some.mpr ⟨h4, rfl⟩]
  exact ⟨_, rfl⟩

theorem emitSectionHeaders_singleton {s : COFFSection} {ph buf : List Nat}
    {d : Dict} (h : s.pack = some ph) :
    emitSectionHeaders [s] buf d
      = some (buf ++ ph, dictSet d s.name buf.length) := by
  rw [emitSectionHeaders, h]
  rfl

theorem emitSectionData_singleton {s : COFFSection} {buf p : List Nat}
    {d : Dict} {header : Nat} (hdg : dictGet d s.name = some header)
    (hp : packU32 buf.length = some p) :
    emitSectionData [s] buf d = some (patch buf (header + 20) p ++ s.data) := by
  rw [emitSectionData, hdg, hp]
  rfl

theorem emitRelocs_singleton_fail {s : COFFSection} {buf : List Nat}
    {d : Dict} {header : Nat} (hr : 0 < s.relocations.length)
    (hdg : dictGet d s.name = some header)
    (hp : packU16 buf.length = none) : emitRelocs [s] buf d = none := by
  rw [emitRelocs, if_pos hr, hdg, hp]

theorem COFFGenerator.emit_fails_at_relocs {g : COFFGenerator} {t : Nat}
    {buf1 buf2 : List Nat} {d : Dict}
    (h1 : emitSectionHeaders g.sections (List.replicate COFFHeader.size 0) []
      = some (buf1, d))
    (h2 : emitSectionData g.sections buf1 d = some buf2)
    (h3 : emitRelocs g.sections buf2 d = none) : g.emit t = none := by
  rw [COFFGenerator.emit]
  simp only [h1, h2, h3]

theorem COFFGenerator.emit_eq_of_passes {g : COFFGenerator} {t : Nat}
    {buf1 buf2 buf3 buf4 : List Nat} {d : Dict} {g2 : COFFGenerator}
    {hp : List Nat} {hd2 : COFFHeader}
    (h1 : emitSectionHeaders g.sections (List.replicate COFFHeader.size 0) []
      = some (buf1, d))
    (h2 : emitSectionData g.sections buf1 d = some buf2)
    (h3 : emitRelocs g.sections buf2 d = some buf3)
    (h4 : emitSymbols g.symbols buf3
      { g with header :=
          { g.header with PointerToSymbolTable := buf3.length } }
      = some (buf4, g2))
    (h5 : COFFHeader.pack g2.header t = some (hp, hd2)) :
    g.emit t = some (patch (buf4 ++ g2.strings) 0 hp,
      { g2 with header := hd2 }) := by
  rw [COFFGenerator.emit]
  simp only [h1, h2, h3, h4, h5]

/-- Section object built through the public API: 65476 data bytes and one
relocation, so that the relocation-table patch happens at buffer offset
65536. -/
def c1Sec : COFFSection :=
  ((((COFFGenerator.mk0 true 0).addSection (pyStr "a") 0).1.emit
      (List.replicate 65476 0)).2.reloc 0 0 0)

/-- Generator owning `c1Sec` (the section list reflects the aliasing of the
section object returned by addSection). -/
def c1Gen : COFFGenerator :=
  { ((COFFGenerator.mk0 true 0).addSection (pyStr "a") 0).2 with
      sections := [c1Sec] }

/-- Claim C1: the relocation-pointer patch is a two-byte `struct.pack("H")`
write, not a four-byte one; once the buffer has reached 65536 bytes at patch
time it raises `struct.error` instead of succeeding, so `emit` fails on
`c1Gen`. -/
theorem C1_reloc_patch_overflow : c1Gen.emit 7 = none := by
  have hdata : c1Sec.data.length = 65476 := by
    rw [show c1Sec.data = List.replicate 65476 0 from rfl, List.length_replicate]
  have hrel : c1Sec.relocations = [⟨0, 0, 0⟩] := rfl
  have hname : c1Sec.name = [97] := rfl
  obtain ⟨ph, hph⟩ := COFFSection.pack_some c1Sec
    (by rw [hdata]; decide)
    (by rw [show c1Sec.VirtualAddress = 0 from rfl]; decide)
    (by rw [hrel]; decide)
    (by rw [show c1Sec.characteristics = 0 from rfl]; decide)
  have hph40 : ph.length = 40 := COFFSection.pack_length_section hph
  have h1 : emitSectionHeaders c1Gen.sections (List.replicate COFFHeader.size 0) []
      = some (List.replicate 20 0 ++ ph, [([97], 20)]) := by
    show emitSectionHeaders [c1Sec] _ _ = _
    rw [emitSectionHeaders_singleton hph, hname]
    rfl
  have hlen1 : (List.replicate 20 0 ++ ph).length = 60 := by simp [hph40]
  have hdg : dictGet [([97], 20)] c1Sec.name = some 20 := by
    rw [hname]
    rfl
  have h2 : emitSectionData c1Gen.sections (List.replicate 20 0 ++ ph)
      [([97], 20)]
      = some (patch (List.replicate 20 0 ++ ph) (20 + 20) (le32 60) ++
          c1Sec.data) := by
    show emitSectionData [c1Sec] _ _ = _
    exact emitSectionData_singleton hdg (by rw [hlen1]; decide)
  have hlen2 : (patch (List.replicate 20 0 ++ ph) (20 + 20) (le32 60) ++
      c1Sec.data).length = 65536 := by
    rw [List.length_append,
        patch_length (by rw [hlen1]; simp [le32]), hlen1, hdata]
  have h3 : emitRelocs c1Gen.sections
      (patch (List.replicate 20 0 ++ ph) (20 + 20) (le32 60) ++ c1Sec.data)
      [([97], 20)] = none := by
    show emitRelocs [c1Sec] _ _ = _
    refine emitRelocs_singleton_fail (by rw [hrel]; decide) hdg ?_
    rw [hlen2]
    decide
  exact COFFGenerator.emit_fails_at_relocs h1 h2 h3

/-- Generator with one symbol whose name has nine characters. -/
def longSymGen : COFFGenerator :=
  ((COFFGenerator.mk0 true 0).symbol (pyStr "abcdefghi") 0 0 0x20 2).2

/-- Claim C2 counterexample: on a generator with a long-named symbol and no
mutation in between, two successive calls of emit return buffers of lengths
52 and 62, because packing the symbol appends its name to the string table
again on every call. -/
theorem C2_counterexample :
    (longSymGen.emit 100).map (fun p => p.1.length) = some 52 ∧
    ((longSymGen.emit 100).bind fun p =>
      (p.2.emit 200).map fun q => q.1.length) = some 62 ∧ (52 : Nat) ≠ 62 := by
  decide

/-- Claim C2 (amended): when no symbol name exceeds 8 characters, two
successive successful emissions with no interleaved mutation return buffers
of equal length that agree at every offset outside the 4-byte timestamp
field at bytes 4..7. -/
theorem C2_determinism_mod_timestamp {g : COFFGenerator} {t1 t2 : Nat}
    {b1 b2 : List Nat} {g1 g2 : COFFGenerator}
    (hshort : ∀ sym, sym ∈ g.symbols → sym.name.length ≤ 8)
    (h1 : g.emit t1 = some (b1, g1)) (h2 : g1.emit t2 = some (b2, g2)) :
    b1.length = b2.length ∧ ∀ k, k < 4 ∨ 8 ≤ k → b1[k]? = b2[k]? := by
  obtain ⟨hsec, hsym, hbit, ⟨p, hhd⟩, hstr⟩ := COFFGenerator.emit_spec h1
  obtain ⟨g2', h2'⟩ := COFFGenerator.emit_congr hsec hsym (hstr hshort)
    (by simp [hhd]) (by simp [hhd]) (by simp [hhd]) (by simp [hhd])
    (by simp [hhd]) h2
  exact COFFGenerator.emit_timestamp_bytes h1 h2'

/-- Buffer produced by emitting the empty 64-bit generator at timestamp 7. -/
def wEmptyBuf : List Nat :=
  [100, 134, 0, 0, 7, 0, 0, 0, 20, 0, 0, 0, 0, 0, 0, 0, 0, 0, 0, 0, 4, 0, 0, 0]

/-- Generator state after emitting the empty 64-bit generator at
timestamp 7. -/
def wEmptyGen : COFFGenerator :=
  { COFFGenerator.mk0 true 0 with
      header := { (COFFGenerator.mk0 true 0).header with
                    PointerToSymbolTable := 20, TimeDateStamp := 7 } }

/-- Buffer produced by re-emitting at timestamp 9. -/
def wEmptyBuf2 : List Nat :=
  [100, 134, 0, 0, 9, 0, 0, 0, 20, 0, 0, 0, 0, 0, 0, 0, 0, 0, 0, 0, 4, 0, 0, 0]

/-- Generator state after the second emission. -/
def wEmptyGen2 : COFFGenerator :=
  { COFFGenerator.mk0 true 0 with
      header := { (COFFGenerator.mk0 true 0).header with
                    PointerToSymbolTable := 20, TimeDateStamp := 9 } }

theorem C2_determinism_witness :
    wEmptyBuf.length = wEmptyBuf2.length ∧ wEmptyBuf[8]? = wEmptyBuf2[8]? :=
  ⟨(C2_determinism_mod_timestamp (by decide)
      (show (COFFGenerator.mk0 true 0).emit 7 = some (wEmptyBuf, wEmptyGen)
        by decide)
      (show wEmptyGen.emit 9 = some (wEmptyBuf2, wEmptyGen2) by decide)).1,
   (C2_determinism_mod_timestamp (by decide)
      (show (COFFGenerator.mk0 true 0).emit 7 = some (wEmptyBuf, wEmptyGen)
        by decide)
      (show wEmptyGen.emit 9 = some (wEmptyBuf2, wEmptyGen2) by decide)).2
     8 (Or.inr (by decide))⟩

/-- Claim C3 counterexample: emit on a generator with a long-named symbol
grows the string table from 4 to 14 bytes, so emit does not leave the string
table unchanged. -/
theorem C3_counterexample :
    (longSymGen.emit 100).map (fun p => p.2.strings.length) = some 14 ∧
    longSymGen.strings.length = 4 ∧ (14 : Nat) ≠ 4 := by
  decide

/-- Claim C3 (amended): emit leaves the sections, the symbol list and the
is64bit flag unchanged and only rewrites the header's symbol-table pointer
and timestamp; the string table is also unchanged provided no symbol name
exceeds 8 characters (otherwise packing appends each long name to it). -/
theorem C3_emit_frame {g : COFFGenerator} {t : Nat} {b : List Nat}
    {g' : COFFGenerator} (h : g.emit t = some (b, g')) :
    g'.sections = g.sections ∧ g'.symbols = g.symbols ∧
    g'.is64bit = g.is64bit ∧
    (∃ p, g'.header = { g.header with PointerToSymbolTable := p, TimeDateStamp := t }) ∧
    ((∀ sym, sym ∈ g.symbols → sym.name.length ≤ 8) →
      g'.strings = g.strings) :=
  COFFGenerator.emit_spec h

theorem C3_emit_frame_witness :
    wEmptyGen.sections = (COFFGenerator.mk0 true 0).sections ∧
    wEmptyGen.symbols = (COFFGenerator.mk0 true 0).symbols ∧
    wEmptyGen.strings = (COFFGenerator.mk0 true 0).strings :=
  ⟨(C3_emit_frame (show (COFFGenerator.mk0 true 0).emit 7
      = some (wEmptyBuf, wEmptyGen) by decide)).1,
   (C3_emit_frame (show (COFFGenerator.mk0 true 0).emit 7
      = some (wEmptyBuf, wEmptyGen) by decide)).2.1,
   (C3_emit_frame (show (COFFGenerator.mk0 true 0).emit 7
      = some (wEmptyBuf, wEmptyGen) by decide)).2.2.2.2 (by decide)⟩

/-- Claim C4 counterexample: registering a symbol with a nine-character name
leaves the string table at its initial four bytes, so nothing is appended at
addSymbol time. -/
theorem C4_counterexample :
    ((COFFGenerator.mk0 true 0).symbol (pyStr "abcdefghi") 0 0 0x20 2).2.strings
      = [4, 0, 0, 0] ∧ 8 < (pyStr "abcdefghi").length := by
  decide

/-- Claim C4 (amended): for a symbol whose name exceeds 8 characters,
addSymbol leaves the string table untouched; the name plus a terminating
zero byte is appended to the shared table only when the symbol is packed
(during emit), and the packed record's bytes 4..7 hold the offset the string
body was given at that moment. -/
theorem C4_lazy_name_append {g g2 g3 : COFFGenerator} {name : List Nat}
    {v si ty st : Nat} {rec : List Nat} (hlong : 8 < name.length)
    (hp : (COFFSymbol.mk name v si ty st).pack g2 = some (rec, g3)) :
    (g.symbol name v si ty st).2.strings = g.strings ∧
    g3.strings = le32 (g2.strings ++ utf8 name ++ [0]).length ++
      (g2.strings ++ utf8 name ++ [0]).drop 4 ∧
    rec.take 8 = le32 0 ++ le32 g2.strings.length := by
  refine ⟨rfl, ?_, ?_⟩
  · obtain ⟨hstr, -⟩ := COFFSymbol.pack_long hlong hp
    obtain ⟨-, -, rfl⟩ := COFFGenerator.string_eq_some hstr
    rfl
  · obtain ⟨-, hrec⟩ := COFFSymbol.pack_long hlong hp
    rw [hrec]
    rw [List.take_append_of_le_length (by rw [packS_length])]
    rw [List.take_of_length_le (by rw [packS_length])]
    simp [packS, ljust, le32]

/-- Record produced by packing the long-named witness symbol on a fresh
generator. -/
def wLongRec : List Nat :=
  [0, 0, 0, 0, 4, 0, 0, 0, 1, 0, 0, 0, 2, 0, 32, 0, 2, 0]

/-- Generator state after that pack appended the name to the string table. -/
def wLongGen : COFFGenerator :=
  { COFFGenerator.mk0 true 0 with
      strings := [14, 0, 0, 0, 97, 98, 99, 100, 101, 102, 103, 104, 105, 0] }

theorem C4_lazy_name_append_witness :
    ((COFFGenerator.mk0 true 0).symbol (pyStr "abcdefghi") 1 2 32 2).2.strings
        = (COFFGenerator.mk0 true 0).strings ∧
    wLongGen.strings =
      le32 ((COFFGenerator.mk0 true 0).strings ++ utf8 (pyStr "abcdefghi") ++
        [0]).length ++
      ((COFFGenerator.mk0 true 0).strings ++ utf8 (pyStr "abcdefghi") ++
        [0]).drop 4 ∧
    wLongRec.take 8 = le32 0 ++ le32 (COFFGenerator.mk0 true 0).strings.length :=
  C4_lazy_name_append (by decide)
    (show (COFFSymbol.mk (pyStr "abcdefghi") 1 2 32 2).pack
        (COFFGenerator.mk0 true 0) = some (wLongRec, wLongGen) by decide)

/-- Claim C5 counterexample: the empty 64-bit generator emits 24 bytes, not
20, because the four-byte string-table length prefix is always appended. -/
theorem C5_counterexample :
    ((COFFGenerator.mk0 true 5).emit 7).map (fun p => p.1.length) = some 24 ∧
    (24 : Nat) ≠ 20 := by
  decide

/-- Claim C5 (amended): a fresh 64-bit generator emits exactly 24 bytes: a
20-byte header that is zero except machine 0x8664 (bytes 0..1), the nonzero
timestamp (bytes 4..7) and the symbol-table pointer 20 (bytes 8..11),
followed by the 4-byte empty string table. -/
theorem C5_empty_emit {t0 t : Nat} (ht : 0 < t) (ht32 : t < 4294967296) :
    (COFFGenerator.mk0 true t0).emit t =
      some (le16 0x8664 ++ le16 0 ++ le32 t ++ le32 20 ++ le32 0 ++ le16 0 ++
              le16 0 ++ [4, 0, 0, 0],
            { COFFGenerator.mk0 true t0 with
                header := { (COFFGenerator.mk0 true t0).header with
                              PointerToSymbolTable := 20,
                              TimeDateStamp := t } }) ∧
    le32 t ≠ [0, 0, 0, 0] := by
  constructor
  · have h1 : emitSectionHeaders (COFFGenerator.mk0 true t0).sections
        (List.replicate COFFHeader.size 0) []
        = some (List.replicate COFFHeader.size 0, []) := rfl
    have h2 : emitSectionData (COFFGenerator.mk0 true t0).sections
        (List.replicate COFFHeader.size 0) []
        = some (List.replicate COFFHeader.size 0) := rfl
    have h3 : emitRelocs (COFFGenerator.mk0 true t0).sections
        (List.replicate COFFHeader.size 0) []
        = some (List.replicate COFFHeader.size 0) := rfl
    have h4 : emitSymbols (COFFGenerator.mk0 true t0).symbols
        (List.replicate COFFHeader.size 0)
        { COFFGenerator.mk0 true t0 with
            header := { (COFFGenerator.mk0 true t0).header with
                          PointerToSymbolTable :=
                            (List.replicate COFFHeader.size 0).length } }
        = some (List.replicate COFFHeader.size 0,
            { COFFGenerator.mk0 true t0 with
                header := { (COFFGenerator.mk0 true t0).header with
                              PointerToSymbolTable :=
                                (List.replicate COFFHeader.size 0).length } }) :=
      rfl
    have h5 : COFFHeader.pack
        ({ COFFGenerator.mk0 true t0 with
            header := { (COFFGenerator.mk0 true t0).header with
                          PointerToSymbolTable :=
                            (List.replicate COFFHeader.size 0).length } } :
          COFFGenerator).header t
        = some (le16 0x8664 ++ le16 0 ++ le32 t ++ le32 20 ++ le32 0 ++
            le16 0 ++ le16 0,
            { ({ COFFGenerator.mk0 true t0 with
                  header := { (COFFGenerator.mk0 true t0).header with
                                PointerToSymbolTable :=
                                  (List.replicate COFFHeader.size 0).length } } :
                COFFGenerator).header with TimeDateStamp := t }) := by
      unfold COFFHeader.pack
      rw [packU32_eq_some.mpr ⟨ht32, rfl⟩]
      rfl
    have hres := COFFGenerator.emit_eq_of_passes h1 h2 h3 h4 h5
    rw [hres]
    rfl
  · intro hz
    simp only [le32, List.cons.injEq, and_true] at hz
    omega

theorem C5_empty_emit_witness :
    (COFFGenerator.mk0 true 0).emit 7 =
      some (le16 0x8664 ++ le16 0 ++ le32 7 ++ le32 20 ++ le32 0 ++ le16 0 ++
              le16 0 ++ [4, 0, 0, 0],
            { COFFGenerator.mk0 true 0 with
                header := { (COFFGenerator.mk0 true 0).header with
                              PointerToSymbolTable := 20,
                              TimeDateStamp := 7 } }) ∧
    le32 7 ≠ [0, 0, 0, 0] :=
  C5_empty_emit (by decide) (by decide)

/-- Generator with two sections that share the name "a": the first holds the
byte 1, the second the byte 2 (the section objects alias into the
generator). -/
def dupGen : COFFGenerator :=
  { (((COFFGenerator.mk0 true 0).addSection (pyStr "a") 0).2.addSection
      (pyStr "a") 0).2 with
      sections :=
        [ ((((COFFGenerator.mk0 true 0).addSection (pyStr "a") 0).1).emit [1]).2,
          ((((COFFGenerator.mk0 true 0).addSection (pyStr "a") 0).2.addSection
              (pyStr "a") 0).1.emit [2]).2 ] }

/-- Claim C6 counterexample: with two sections of the same name, the header
dict keyed by name sends both patches to the second header, so the first
section's data-pointer field stays zero although its data begins at offset
100 (its first byte, 1, sits at index 100 of the 106-byte output). -/
theorem C6_counterexample :
    (dupGen.emit 7).map
      (fun p => (read4 p.1 (20 + 40 * 0 + 20), p.1[100]?, p.1.length))
      = some ([0, 0, 0, 0], some 1, 106) ∧
    le32 (20 + 40 * dupGen.sections.length + sumData (dupGen.sections.take 0))
      ≠ [0, 0, 0, 0] := by
  decide

/-- Claim C6 (amended): provided the section names are pairwise distinct,
the four bytes at offset sectionHeaderOffset + 20 of the emitted buffer are
exactly the little-endian offset at which that section's data begins. -/
theorem C6_data_pointer_fidelity {g : COFFGenerator} {t : Nat}
    {b : List Nat} {g' : COFFGenerator}
    (hnd : g.sections.Pairwise (fun a b => a.name ≠ b.name))
    (h : g.emit t = some (b, g')) :
    ∀ i (hi : i < g.sections.length),
      read4 b (20 + 40 * i + 20) =
        le32 (20 + 40 * g.sections.length + sumData (g.sections.take i)) :=
  COFFGenerator.emit_data_pointer hnd h

/-- Generator with a single empty section named "a". -/
def wSecGen : COFFGenerator :=
  ((COFFGenerator.mk0 true 0).addSection (pyStr "a") 0).2

/-- Buffer emitted from `wSecGen` at timestamp 7. -/
def wSecBuf : List Nat :=
  [100, 134, 1, 0, 7, 0, 0, 0, 60, 0, 0, 0, 0, 0, 0, 0, 0, 0, 0, 0,
   97, 0, 0, 0, 0, 0, 0, 0, 0, 0, 0, 0, 0, 0, 0, 0, 0, 0, 0, 0,
   60, 0, 0, 0, 0, 0, 0, 0, 0, 0, 0, 0, 0, 0, 0, 0, 0, 0, 0, 0,
   4, 0, 0, 0]

/-- Generator state after emitting `wSecGen` at timestamp 7. -/
def wSecGen2 : COFFGenerator :=
  { wSecGen with
      header := { wSecGen.header with
                    PointerToSymbolTable := 60, TimeDateStamp := 7 } }

theorem C6_data_pointer_witness :
    read4 wSecBuf (20 + 40 * 0 + 20) =
      le32 (20 + 40 * wSecGen.sections.length +
        sumData (wSecGen.sections.take 0)) :=
  C6_data_pointer_fidelity (by decide)
    (show wSecGen.emit 7 = some (wSecBuf, wSecGen2) by decide) 0 (by decide)

/-- Claim C7: the emitted buffer's length is exactly the fixed header size
plus 40 bytes per section header, all section data, 10 bytes per
relocation, 18 bytes per symbol, and the final string table, with no
padding. -/
theorem C7_size_formula {g : COFFGenerator} {t : Nat} {b : List Nat}
    {g' : COFFGenerator} (h : g.emit t = some (b, g')) :
    b.length = 20 + 40 * g.sections.length + sumData g.sections +
      10 * sumRelocs g.sections + 18 * g.symbols.length +
      g'.strings.length :=
  COFFGenerator.emit_length h

theorem C7_size_formula_witness :
    wSecBuf.length = 20 + 40 * wSecGen.sections.length +
      sumData wSecGen.sections + 10 * sumRelocs wSecGen.sections +
      18 * wSecGen.symbols.length + wSecGen2.strings.length :=
  C7_size_formula (show wSecGen.emit 7 = some (wSecBuf, wSecGen2) by decide)

/-- Claim C8: in every generator state reachable through the public
operations, the first four bytes of the string table are the little-endian
encoding of the table's own total length. -/
theorem C8_string_table_prefix {g : COFFGenerator} (h : Reachable g) :
    g.strings.take 4 = le32 g.strings.length :=
  Reachable.stringsInv_holds h

/-- Generator state after registering the string "hello". -/
def wStrGen : COFFGenerator :=
  { COFFGenerator.mk0 true 0 with
      strings := [10, 0, 0, 0, 104, 101, 108, 108, 111, 0] }

theorem C8_string_table_prefix_witness :
    wStrGen.strings.take 4 = le32 wStrGen.strings.length :=
  C8_string_table_prefix
    (Reachable.addString (Reachable.init true 0)
      (show (COFFGenerator.mk0 true 0).string (pyStr "hello")
        = some (4, wStrGen) by decide))

/-- Section with one relocation used to exhibit the header byte layout. -/
def c9Sec : COFFSection :=
  { name := pyStr "x", relocations := [⟨0, 0, 0⟩], VirtualAddress := 0,
    characteristics := 0x60000020, data := [9, 9, 9] }

/-- Claim C9 counterexample: in the packed section header the relocation
count (here 1) occupies bytes 32..33, not bytes 30..31, which hold zeros of
the split line-number field. -/
theorem C9_counterexample :
    (c9Sec.pack).map
      (fun r => ((r.drop 30).take 2, (r.drop 32).take 2, r.length))
      = some ([0, 0], [1, 0], 40) ∧
    le16 c9Sec.relocations.length ≠ [0, 0] := by
  decide

/-- Claim C9 (amended): the packed section header is 40 bytes laid out as
name(8), rawSize(4), VA(4), rawSize(4), dataPtr(4)=0, relocPtr(4)=0, two
zero 2-byte fields at 28..31, the relocation count at 32..33, two zero
struct-alignment padding bytes at 34..35, and characteristics in the final
four bytes 36..39. -/
theorem C9_section_header_layout {s : COFFSection} {rec : List Nat}
    (h : s.pack = some rec) :
    rec.length = 40 ∧
    rec = packS 8 (ljust 8 (utf8 (s.name.take 8))) ++ le32 s.data.length ++
      le32 s.VirtualAddress ++ le32 s.data.length ++ le32 0 ++ le32 0 ++
      le16 0 ++ le16 0 ++ le16 s.relocations.length ++ [0, 0] ++
      le32 s.characteristics ∧
    (rec.drop 32).take 2 = le16 s.relocations.length ∧
    (rec.drop 36).take 4 = le32 s.characteristics := by
  have h40 := COFFSection.pack_length_section h
  obtain ⟨-, -, hrec⟩ := COFFSection.pack_eq_some_section h
  refine ⟨h40, hrec, ?_, ?_⟩
  · rw [hrec]
    rw [show packS 8 (ljust 8 (utf8 (s.name.take 8))) ++ le32 s.data.length ++
        le32 s.VirtualAddress ++ le32 s.data.length ++ le32 0 ++ le32 0 ++
        le16 0 ++ le16 0 ++ le16 s.relocations.length ++ [0, 0] ++
        le32 s.characteristics =
      (packS 8 (ljust 8 (utf8 (s.name.take 8))) ++ le32 s.data.length ++
        le32 s.VirtualAddress ++ le32 s.data.length ++ le32 0 ++ le32 0 ++
        le16 0 ++ le16 0) ++
      (le16 s.relocations.length ++ ([0, 0] ++ le32 s.characteristics))
      from by simp [List.append_assoc]]
    rw [List.drop_left' (by simp [packS_length, le32, le16])]
    rw [List.take_left' (by simp [le16])]
  · rw [hrec]
    rw [show packS 8 (ljust 8 (utf8 (s.name.take 8))) ++ le32 s.data.length ++
        le32 s.VirtualAddress ++ le32 s.data.length ++ le32 0 ++ le32 0 ++
        le16 0 ++ le16 0 ++ le16 s.relocations.length ++ [0, 0] ++
        le32 s.characteristics =
      (packS 8 (ljust 8 (utf8 (s.name.take 8))) ++ le32 s.data.length ++
        le32 s.VirtualAddress ++ le32 s.data.length ++ le32 0 ++ le32 0 ++
        le16 0 ++ le16 0 ++ le16 s.relocations.length ++ [0, 0]) ++
      le32 s.characteristics
      from by simp [List.append_assoc]]
    rw [List.drop_left' (by simp [packS_length, le32, le16])]
    rw [List.take_of_length_le (by simp [le32])]

theorem C9_section_header_layout_witness :
    ([120, 0, 0, 0, 0, 0, 0, 0, 3, 0, 0, 0, 0, 0, 0, 0, 3, 0, 0, 0, 0, 0, 0,
      0, 0, 0, 0, 0, 0, 0, 0, 0, 1, 0, 0, 0, 32, 0, 0, 96] : List Nat).length
        = 40 ∧
    ([120, 0, 0, 0, 0, 0, 0, 0, 3, 0, 0, 0, 0, 0, 0, 0, 3, 0, 0, 0, 0, 0, 0,
      0, 0, 0, 0, 0, 0, 0, 0, 0, 1, 0, 0, 0, 32, 0, 0, 96] : List Nat)
      = packS 8 (ljust 8 (utf8 (c9Sec.name.take 8))) ++
        le32 c9Sec.data.length ++ le32 c9Sec.VirtualAddress ++
        le32 c9Sec.data.length ++ le32 0 ++ le32 0 ++ le16 0 ++ le16 0 ++
        le16 c9Sec.relocations.length ++ [0, 0] ++
        le32 c9Sec.characteristics ∧
    (([120, 0, 0, 0, 0, 0, 0, 0, 3, 0, 0, 0, 0, 0, 0, 0, 3, 0, 0, 0, 0, 0, 0,
      0, 0, 0, 0, 0, 0, 0, 0, 0, 1, 0, 0, 0, 32, 0, 0, 96] : List Nat).drop
        32).take 2 = le16 c9Sec.relocations.length ∧
    (([120, 0, 0, 0, 0, 0, 0, 0, 3, 0, 0, 0, 0, 0, 0, 0, 3, 0, 0, 0, 0, 0, 0,
      0, 0, 0, 0, 0, 0, 0, 0, 0, 1, 0, 0, 0, 32, 0, 0, 96] : List Nat).drop
        36).take 4 = le32 c9Sec.characteristics := by
  have hx : c9Sec.pack = some [120, 0, 0, 0, 0, 0, 0, 0, 3, 0, 0, 0, 0, 0, 0,
      0, 3, 0, 0, 0, 0, 0, 0, 0, 0, 0, 0, 0, 0, 0, 0, 0, 1, 0, 0, 0, 32, 0,
      0, 96] := by decide
  exact C9_section_header_layout hx

/-- Long multibyte symbol name: three characters whose UTF-8 encoding takes
nine bytes. -/
def mbSym : COFFSymbol :=
  { name := [0x4E2D, 0x4E2D, 0x4E2D], value := 0, sectionIdx := 0,
    type_ := 0, storage := 2 }

/-- Record produced by packing `mbSym` on a fresh generator: the nine-byte
encoding is silently truncated to eight bytes. -/
def mbRec : List Nat :=
  [228, 184, 173, 228, 184, 173, 228, 184, 0, 0, 0, 0, 0, 0, 0, 0, 2, 0]

/-- Claim C10: the inline-versus-string-table choice is made on the name's
character count: a name of at most 8 characters is embedded inline (its
UTF-8 encoding truncated to 8 bytes when longer) and the generator is left
untouched, while a name of more than 8 characters yields the zero sentinel
followed by the string-table offset. -/
theorem C10_symbol_name_choice {sym : COFFSymbol} {g g' : COFFGenerator}
    {rec : List Nat} (h : sym.pack g = some (rec, g')) :
    (sym.name.length ≤ 8 →
      g' = g ∧ rec.take 8 = packS 8 (ljust 8 (utf8 sym.name))) ∧
    (8 < sym.name.length →
      rec.take 8 = le32 0 ++ le32 g.strings.length) := by
  constructor
  · intro hs
    obtain ⟨rfl, rfl⟩ := COFFSymbol.pack_short hs h
    refine ⟨rfl, ?_⟩
    rw [List.take_append_of_le_length (by rw [packS_length])]
    exact List.take_of_length_le (by rw [packS_length])
  · intro hs
    obtain ⟨-, rfl⟩ := COFFSymbol.pack_long hs h
    rw [List.take_append_of_le_length (by rw [packS_length])]
    rw [List.take_of_length_le (by rw [packS_length])]
    simp [packS, ljust, le32]

theorem C10_symbol_name_choice_witness :
    (mbSym.name.length ≤ 8 →
      COFFGenerator.mk0 true 0 = COFFGenerator.mk0 true 0 ∧
      mbRec.take 8 = packS 8 (ljust 8 (utf8 mbSym.name))) ∧
    (8 < mbSym.name.length →
      mbRec.take 8 = le32 0 ++ le32 (COFFGenerator.mk0 true 0).strings.length) :=
  C10_symbol_name_choice
    (show mbSym.pack (COFFGenerator.mk0 true 0)
      = some (mbRec, COFFGenerator.mk0 true 0) by decide)
